import Mathlib

/-!
Verification of the augmented interval tree and per-day schedule index of
`schedule_manager/core.py`.

The mutable, parent-pointer red-black tree of the Python source is embedded as a
purely functional tree together with an explicit zipper (a list of `Frame`s) that
plays the role of the parent pointers: walking up via `node.parent` becomes
consuming the head of the frame list, and in-place pointer surgery becomes
rebuilding the affected subtree.  Machine integers are modelled by `Int`
(Python integers are unbounded).  Wall-clock times of day are modelled by their
minute offset `hour*60 + minute`; comparison of `datetime.time` values is
lexicographic on (hour, minute) and therefore coincides with comparison of the
minute offsets, and `_time_to_minutes` (core.py line 389) is exactly this map.
-/

namespace Schedule

/-- Node colors (core.py lines 16-18). -/
inductive Color where
  | red : Color
  | black : Color
deriving DecidableEq, Repr

/-- An interval tree: either absent (the Python `None` / `self.nil` sentinel,
both of which stand for "no node" — `nil` is a black colored leaf with no
payload and no query ever reads its fields), or a node carrying `start`, `end`,
`slot_id`, the cached `max_end` of its subtree, and the two children
(core.py `IntervalNode`, lines 21-38).  The Python parent pointers are
represented by the zipper contexts below. -/
inductive Tree where
  | nil : Tree
  | node (color : Color) (start end_ slot_id max_end : Int) (l r : Tree) : Tree
deriving DecidableEq, Repr

namespace Tree

/-- The `max_end` computation of `_update_max_end` (core.py lines 47-56):
start from the node's own `end`, then take the max with the left child's
`max_end` when the left child is a real node, then with the right child's
`max_end` when the right child is a real node. -/
def children_max_end (e : Int) (l r : Tree) : Int :=
  let m₁ : Int := match l with
    | nil => e
    | node _ _ _ _ me _ _ => max e me
  match r with
  | nil => m₁
  | node _ _ _ _ me _ _ => max m₁ me

/-- Model of `_update_max_end` (core.py lines 47-56) as a subtree transformer: recompute
the root's `max_end` from its children.  On the empty tree this is the guard
`node is None or node == self.nil` returning without change. -/
def update_max_end : Tree → Tree
  | nil => nil
  | node c s e id _ l r => node c s e id (children_max_end e l r) l r

/-- Model of `_left_rotate` (core.py lines 58-81) restricted to the subtree handed to it:
`y = x.right` becomes the subtree root, `x` becomes `y`'s left child, `y`'s
former left child becomes `x`'s right child, and `max_end` is recomputed for
`x` then `y` in that order (lines 80-81).  The parent relinking of lines 68-75
is performed by the surrounding zipper context.  When the right child is
absent the guard of line 59 returns without change (the fixup only ever
rotates over a real child, see `_insert_fixup`). -/
def left_rotate : Tree → Tree
  | node cx sx ex idx mex lx (node cy sy ey idy mey ly ry) =>
      let x' := update_max_end (node cx sx ex idx mex lx ly)
      update_max_end (node cy sy ey idy mey x' ry)
  | t => t

/-- Model of `_right_rotate` (core.py lines 83-106), mirror image of `left_rotate`:
`x = y.left` becomes the subtree root and `max_end` is recomputed for `y`
then `x` (lines 105-106). -/
def right_rotate : Tree → Tree
  | node cy sy ey idy mey (node cx sx ex idx mex lx rx) ry =>
      let y' := update_max_end (node cy sy ey idy mey rx ry)
      update_max_end (node cx sx ex idx mex lx y')
  | t => t

/-- Which child slot of its parent a focused subtree occupies. -/
inductive Dir where
  | left : Dir
  | right : Dir
deriving DecidableEq, Repr

/-- One step of the path from a node up to the root: the parent node's fields
together with its other child.  A list of frames (innermost frame first) is the
functional image of the chain of `parent` pointers of the Python nodes. -/
structure Frame where
  dir : Dir
  color : Color
  start : Int
  end_ : Int
  slot_id : Int
  max_end : Int
  sibling : Tree
deriving DecidableEq, Repr

/-- Rebuild the parent node from its frame and the focused subtree. -/
def Frame.fill (f : Frame) (t : Tree) : Tree :=
  match f.dir with
  | Dir.left => node f.color f.start f.end_ f.slot_id f.max_end t f.sibling
  | Dir.right => node f.color f.start f.end_ f.slot_id f.max_end f.sibling t

/-- Rebuild the whole tree from a focused subtree and its context. -/
def plug (t : Tree) : List Frame → Tree
  | [] => t
  | f :: rest => plug (f.fill t) rest

/-- The descent of `insert` (core.py lines 170-190): walk from the root to the
insertion point of a new `start` key, accumulating the path as zipper frames,
with ties going left (lines 178 and 187: `new_node.start <= current.start`).
Line 176 recomputes the `max_end` of every node on the path; the frame records
that recomputed value (it is recomputed once more, against the grown subtree,
by the ancestor pass of lines 192-196). -/
def descend (s : Int) : Tree → List Frame → List Frame
  | nil, ctx => ctx
  | node c ns ne nid _ l r, ctx =>
      let me := children_max_end ne l r
      if s ≤ ns then
        descend s l (⟨Dir.left, c, ns, ne, nid, me, r⟩ :: ctx)
      else
        descend s r (⟨Dir.right, c, ns, ne, nid, me, l⟩ :: ctx)

/-- The `max_end` value `_update_max_end` computes for the node a frame
describes, given the current content of its hole. -/
def Frame.cme (f : Frame) (t : Tree) : Int :=
  match f.dir with
  | Dir.left => children_max_end f.end_ t f.sibling
  | Dir.right => children_max_end f.end_ f.sibling t

/-- Recompute a frame's `max_end` given the current content of its hole
(one step of the ancestor pass, core.py lines 192-196). -/
def Frame.update (f : Frame) (t : Tree) : Frame :=
  { f with max_end := f.cme t }

/-- The ancestor pass of `insert` (core.py lines 192-196): starting from the
freshly attached node, walk to the root recomputing `max_end` at every
ancestor.  The pass returns the updated context; updating the new leaf itself
(the first iteration of the Python loop) is the identity since both its
children are absent. -/
def update_path : Tree → List Frame → List Frame
  | _, [] => []
  | t, f :: rest =>
      let f' := f.update t
      f' :: update_path (f'.fill t) rest

/-- Color the root black (core.py lines 161-162). -/
def blacken_root : Tree → Tree
  | nil => nil
  | node _ s e id me l r => node Color.black s e id me l r

/-- The rebalancing loop of `_insert_fixup` (core.py lines 112-159) on the
zipper: the focused subtree is rooted at the loop variable `node`, the context
is its chain of parents.  The loop runs while the parent exists and is red.

With zero frames the node is the root (its parent is the sentinel) and the
loop is not entered.  With a black innermost frame the loop exits and the tree
is rebuilt unchanged along the remaining parent pointers.

With at least two frames and a red parent, the grandparent is a real node (a
red parent is never the root, the root being blackened after every insert) and
the two symmetric branches of lines 116-159 apply, selected by which child of
the grandparent the parent is: if the uncle is a red node, parent and uncle
are recolored black, the grandparent red, and the loop continues from the
grandparent (lines 123-128 resp. 144-149); otherwise an inner child is first
rotated to the outside (lines 130-132 resp. 151-153), then the parent is
colored black, the grandparent red, and the tree is rotated at the grandparent
(lines 134-138 resp. 155-159) — after which the re-checked loop condition
fails, because the focused node's new parent was just colored black, so the
tree is rebuilt along the remaining frames.

With exactly one frame that is red (a red root parent — unreachable, kept for
totality) the Python branch dispatch lands in the right-parent case with a
grandparent equal to the sentinel and an absent uncle: when the node is its
parent's left child the subtree is right-rotated and the new subtree root
blackened; otherwise the parent is blackened; the subsequent rotation at the
sentinel grandparent (line 159) hits the guard of line 59 and is a no-op. -/
def fixup_loop : Tree → List Frame → Tree
  | t, [] => t
  | t, [f] =>
      if f.color = Color.red then
        match f.dir with
        | Dir.left => blacken_root (right_rotate (f.fill t))
        | Dir.right => Frame.fill { f with color := Color.black } t
      else Frame.fill f t
  | t, f :: g :: rest =>
      if f.color = Color.red then
        match g.dir with
        | Dir.left =>
            match g.sibling with
            | node Color.red us ue uid ume ul ur =>
                let uncle' := node Color.black us ue uid ume ul ur
                let t' := Frame.fill { g with color := Color.red, sibling := uncle' }
                  (Frame.fill { f with color := Color.black } t)
                fixup_loop t' rest
            | _ =>
                let p_sub := blacken_root
                  (match f.dir with
                   | Dir.right => left_rotate (f.fill t)
                   | Dir.left => f.fill t)
                plug (right_rotate (Frame.fill { g with color := Color.red } p_sub)) rest
        | Dir.right =>
            match g.sibling with
            | node Color.red us ue uid ume ul ur =>
                let uncle' := node Color.black us ue uid ume ul ur
                let t' := Frame.fill { g with color := Color.red, sibling := uncle' }
                  (Frame.fill { f with color := Color.black } t)
                fixup_loop t' rest
            | _ =>
                let p_sub := blacken_root
                  (match f.dir with
                   | Dir.left => right_rotate (f.fill t)
                   | Dir.right => f.fill t)
                plug (left_rotate (Frame.fill { g with color := Color.red } p_sub)) rest
      else plug (f.fill t) (g :: rest)

/-- Model of `_insert_fixup` (core.py lines 108-162): the rebalancing loop followed by
coloring the root black (lines 161-162). -/
def fixup (t : Tree) (ctx : List Frame) : Tree :=
  blacken_root (fixup_loop t ctx)

/-- Model of `insert` (core.py lines 164-199): a new red node with `max_end = end`
(line 165) is attached at the position found by descending on `start` with
ties going left; `max_end` is recomputed along the insertion path bottom-up
(lines 192-196); the red-black fixup then rebalances and blackens the root
(line 198).  The `size` counter of the Python object is the node count of the
resulting tree (see `size`). -/
def insert (t : Tree) (s e id : Int) : Tree :=
  let ctx := descend s t []
  let n0 := update_max_end (node Color.red s e id e nil nil)
  fixup n0 (update_path n0 ctx)

/-- Model of `IntervalNode.overlaps_with` (core.py lines 37-38):
`not (self.end <= start or self.start >= end)`. -/
def overlaps_with (s e qs qe : Int) : Bool :=
  !(decide (e ≤ qs) || decide (s ≥ qe))

/-- Model of `find_overlapping` (core.py lines 201-224): pruned traversal from the root;
the node's own id is recorded first when it overlaps, the left subtree is
searched only when it is a real node whose `max_end` exceeds the query start
(lines 211-214), the right subtree only when it is a real node and the node's
own `start` is below the query end (lines 216-219). -/
def find_overlapping (qs qe : Int) : Tree → List Int
  | nil => []
  | node _ s e id _ l r =>
      let here := if overlaps_with s e qs qe then [id] else []
      let goLeft : Bool := match l with
        | nil => false
        | node _ _ _ _ me _ _ => decide (me > qs)
      let goRight : Bool := match r with
        | nil => false
        | node _ _ _ _ _ _ _ => decide (s < qe)
      here ++ (if goLeft then find_overlapping qs qe l else [])
        ++ (if goRight then find_overlapping qs qe r else [])

/-- The in-order traversal of `get_all_intervals` (core.py lines 229-238). -/
def inorder : Tree → List (Int × Int × Int)
  | nil => []
  | node _ s e id _ l r => inorder l ++ (s, e, id) :: inorder r

/-- The order Python `sorted` uses on `(start, end, slot_id)` triples:
lexicographic comparison of tuples. -/
def tripleLe (a b : Int × Int × Int) : Bool :=
  decide (a.1 < b.1) ||
    (decide (a.1 = b.1) && (decide (a.2.1 < b.2.1) ||
      (decide (a.2.1 = b.2.1) && decide (a.2.2 ≤ b.2.2))))

instance : IsTotal (Int × Int × Int) (fun a b => tripleLe a b = true) :=
  ⟨by
    intro a b
    simp only [tripleLe, Bool.or_eq_true, Bool.and_eq_true, decide_eq_true_eq]
    omega⟩

instance : IsTrans (Int × Int × Int) (fun a b => tripleLe a b = true) :=
  ⟨by
    intro a b c
    simp only [tripleLe, Bool.or_eq_true, Bool.and_eq_true, decide_eq_true_eq]
    omega⟩

/-- Model of `get_all_intervals` (core.py lines 226-240): in-order traversal followed by
Python `sorted(result)`, which sorts the triples lexicographically by
`(start, end, slot_id)`.  The lexicographic order is antisymmetric, so every
sort of the traversal produces the same list; an insertion sort stands in
for Python's stable Timsort. -/
def get_all_intervals (t : Tree) : List (Int × Int × Int) :=
  (inorder t).insertionSort (fun a b => tripleLe a b = true)

/-- Model of `is_empty` (core.py lines 242-243). -/
def is_empty : Tree → Bool
  | nil => true
  | node _ _ _ _ _ _ _ => false

/-- The live node count tracked by the Python `size` field (incremented once
per `insert`, core.py line 199). -/
def size : Tree → Nat
  | nil => 0
  | node _ _ _ _ _ l r => size l + size r + 1

/-- A tree grown by a sequence of `insert (start, end, slot_id)` calls starting
from the empty tree (how `_build_indexes` populates each per-date tree,
core.py lines 357-371). -/
def build (ops : List (Int × Int × Int)) : Tree :=
  ops.foldl (fun t x => insert t x.1 x.2.1 x.2.2) nil

/-- The cached `max_end` of the root node, when there is one (absent trees
contribute nothing to `children_max_end`). -/
def rootMe? : Tree → Option Int
  | nil => none
  | node _ _ _ _ me _ _ => some me

/-- The `maxEnd` augmentation invariant (spec §3): at every node the cached
`max_end` equals the node's own `end` maxed with the `max_end` of each present
child — i.e. the value `_update_max_end` would recompute. -/
def maxEndOk : Tree → Prop
  | nil => True
  | node _ _ e _ me l r => me = children_max_end e l r ∧ maxEndOk l ∧ maxEndOk r

/-- Search-tree order on `start` keys: everything in the left subtree has
`start ≤` the node's `start`, everything in the right subtree has `start ≥`
it.  (Insertion sends ties to the left, but a rotation can move an
equal-`start` node into a right subtree, so the invariant the code actually
maintains — and the one the pruned search needs — is the non-strict one.) -/
def bst : Tree → Prop
  | nil => True
  | node _ s _ _ _ l r =>
      (∀ x ∈ inorder l, x.1 ≤ s) ∧ (∀ x ∈ inorder r, s ≤ x.1) ∧ bst l ∧ bst r

/-- The ordering constraints a frame imposes on the content of its hole. -/
def Frame.bstOk (f : Frame) (t : Tree) : Prop :=
  match f.dir with
  | Dir.left => (∀ x ∈ inorder t, x.1 ≤ f.start) ∧ (∀ x ∈ inorder f.sibling, f.start ≤ x.1)
  | Dir.right => (∀ x ∈ inorder f.sibling, x.1 ≤ f.start) ∧ (∀ x ∈ inorder t, f.start ≤ x.1)

/-- The conditions the context adds on top of the focused subtree, so that
`bst (plug t ctx)` resp. `maxEndOk (plug t ctx)` decompose (see
`bst_plug_iff`, `maxEndOk_plug_iff`). -/
def bstCtx : Tree → List Frame → Prop
  | _, [] => True
  | t, f :: rest => f.bstOk t ∧ bst f.sibling ∧ bstCtx (f.fill t) rest

def meCtx : Tree → List Frame → Prop
  | _, [] => True
  | t, f :: rest => f.max_end = f.cme t ∧ maxEndOk f.sibling ∧ meCtx (f.fill t) rest

/-- The combined effect of the attachment (core.py lines 183-190) and the
ancestor `max_end` pass (lines 192-196) of `insert`, as one structural
recursion: descend on `start` with ties to the left, attach a new red node
with `max_end = end`, and recompute `max_end` at every node along the
insertion path on the way back up.  `plug_update_descend` proves this equal
to the zipper pipeline that mirrors the Python statement by statement. -/
def bst_insert (s e id : Int) : Tree → Tree
  | nil => node Color.red s e id e nil nil
  | node c ns ne nid _ l r =>
      if s ≤ ns then
        let l' := bst_insert s e id l
        node c ns ne nid (children_max_end ne l' r) l' r
      else
        let r' := bst_insert s e id r
        node c ns ne nid (children_max_end ne l r') l r'

end Tree

/-! ### The schedule-index layer: `Day`, `TimeSlot`, `ScheduleManager` -/

/-- Outcome of reading one field of a raw input record: the key may be
missing (`data['key']` raises `KeyError`), present but unparsable
(`strptime` raises `ValueError`), or parsed.  Calendar dates are abstracted
to an opaque integer key standing for the canonical `yyyy-mm-dd` string;
times of day to their minute offsets. -/
inductive RawField (α : Type) where
  | missing : RawField α
  | malformed : RawField α
  | parsed : α → RawField α
deriving DecidableEq, Repr

/-- The error kinds core.py raises from the index layer.  `format` covers
both `KeyError` (missing field) and `ValueError` (unparsable date or time),
which `set_data` catches together and re-raises as a single `ValueError`
(lines 343-344); the remaining four are the not-loaded `RuntimeError`, the
day-not-found `RuntimeError`, and the two `ValueError`s of the availability
and duration checks. -/
inductive Err where
  | format : Err
  | not_loaded : Err
  | day_not_found : Err
  | invalid_range : Err
  | invalid_duration : Err
deriving DecidableEq, Repr

deriving instance DecidableEq for Except

/-- Reading a field: missing and malformed both raise (and both are mapped
to `Err.format` by `set_data`). -/
def RawField.get {α : Type} : RawField α → Except Err α
  | RawField.missing => Except.error Err.format
  | RawField.malformed => Except.error Err.format
  | RawField.parsed v => Except.ok v

/-- Model of `Day` (core.py lines 246-271): `date` is the opaque canonical date key,
`start`/`end` the working-hours bounds as minute offsets (comparison of
`datetime.time` values coincides with comparison of minute offsets). -/
structure Day where
  id : Int
  date : Int
  start : Int
  end_ : Int
deriving DecidableEq, Repr

/-- Model of `TimeSlot` (core.py lines 274-304). -/
structure TimeSlot where
  id : Int
  day_id : Int
  start : Int
  end_ : Int
deriving DecidableEq, Repr

/-- A raw day record as consumed by `Day.from_dict`. -/
structure RawDay where
  id : RawField Int
  date : RawField Int
  start : RawField Int
  end_ : RawField Int
deriving DecidableEq, Repr

/-- A raw slot record as consumed by `TimeSlot.from_dict`. -/
structure RawTimeSlot where
  id : RawField Int
  day_id : RawField Int
  start : RawField Int
  end_ : RawField Int
deriving DecidableEq, Repr

/-- Model of `Day.from_dict` (core.py lines 253-260): read `id`, `date`, `start`,
`end` in that order; the first missing or unparsable field raises. -/
def Day.from_dict (r : RawDay) : Except Err Day := do
  let i ← r.id.get
  let d ← r.date.get
  let s ← r.start.get
  let e ← r.end_.get
  return ⟨i, d, s, e⟩

/-- Model of `TimeSlot.from_dict` (core.py lines 281-288). -/
def TimeSlot.from_dict (r : RawTimeSlot) : Except Err TimeSlot := do
  let i ← r.id.get
  let d ← r.day_id.get
  let s ← r.start.get
  let e ← r.end_.get
  return ⟨i, d, s, e⟩

/-- Python `dict.get` on the association-list model of the index
dictionaries. -/
def dget {α : Type} (m : List (Int × α)) (k : Int) : Option α :=
  (m.find? (fun p => p.1 == k)).map (fun p => p.2)

/-- Python `dict` assignment `m[k] = v`: overwrite the entry when the key is
present, append it otherwise. -/
def dset {α : Type} (m : List (Int × α)) (k : Int) (v : α) : List (Int × α) :=
  if (m.find? (fun p => p.1 == k)).isSome then
    m.map (fun p => if p.1 == k then (k, v) else p)
  else m ++ [(k, v)]

/-- The state of a `ScheduleManager` (core.py lines 307-318): the two entity
lists and the three index dictionaries.  The endpoint URL plays no role in
the indexed queries and is omitted. -/
structure Mgr where
  days : List Day
  timeslots : List TimeSlot
  day_by_date : List (Int × Day)
  day_by_id : List (Int × Day)
  interval_trees : List (Int × Tree)
deriving DecidableEq, Repr

/-- A freshly constructed `ScheduleManager()` (core.py lines 308-318). -/
def Mgr.init : Mgr := ⟨[], [], [], [], []⟩

/-- Model of `_build_indexes` (core.py lines 346-371): clear and rebuild the two day
indexes (one pass over `days`, later entries overwriting earlier ones for a
duplicate key), then build one interval tree per date by inserting every
slot whose `day_id` resolves to a known day; unresolved slots are skipped
(lines 359-361).  Slot times are already minute offsets in this model
(`_time_to_minutes` is `hour*60 + minute`, lines 368-369). -/
def build_indexes (days : List Day) (slots : List TimeSlot) :
    List (Int × Day) × List (Int × Day) × List (Int × Tree) :=
  let dbd := days.foldl (fun m d => dset m d.date d) []
  let dbi := days.foldl (fun m d => dset m d.id d) []
  let trees := slots.foldl (fun m sl =>
    match dget dbi sl.day_id with
    | none => m
    | some day =>
        let t := (dget m day.date).getD Tree.nil
        dset m day.date (t.insert sl.start sl.end_ sl.id)) []
  (dbd, dbi, trees)

/-- Model of `set_data` (core.py lines 336-344).  Python first overwrites `self.days`
with the fully parsed day list, then `self.timeslots` with the parsed slot
list, then rebuilds the indexes; a parse failure propagates (re-raised as
`ValueError`) after any assignment already made.  The result is the pair
(state after the call, raised error if any). -/
def set_data (m : Mgr) (days : List RawDay) (slots : List RawTimeSlot) :
    Mgr × Option Err :=
  match days.mapM Day.from_dict with
  | Except.error e => (m, some e)
  | Except.ok ds =>
    match slots.mapM TimeSlot.from_dict with
    | Except.error e => ({ m with days := ds }, some e)
    | Except.ok ts =>
        match build_indexes ds ts with
        | (dbd, dbi, trees) => (⟨ds, ts, dbd, dbi, trees⟩, none)

/-- Model of `get_busy_intervals` (core.py lines 396-415): not-loaded check, day
lookup, then all stored intervals of that date's tree as (start, end) minute
pairs (the wall-clock `strftime` rendering is the inverse of
`_time_to_minutes` on the values that occur). -/
def get_busy_intervals (m : Mgr) (date : Int) : Except Err (List (Int × Int)) :=
  if m.days = [] then Except.error Err.not_loaded
  else
    match dget m.day_by_date date with
    | none => Except.error Err.day_not_found
    | some _ =>
        match dget m.interval_trees date with
        | none => Except.ok []
        | some t =>
            if t.is_empty then Except.ok []
            else Except.ok ((Tree.get_all_intervals t).map (fun x => (x.1, x.2.1)))

/-- The gap scan of `get_free_time` (core.py lines 435-444): walk the sorted
interval triples with a cursor; emit a gap when the cursor is strictly
before the next interval's start; advance the cursor to the max of itself
and the interval's end; emit a trailing gap up to `day_end` when one
remains. -/
def gaps (current day_end : Int) : List (Int × Int × Int) → List (Int × Int)
  | [] => if current < day_end then [(current, day_end)] else []
  | (s, e, _) :: rest =>
      if current < s then (current, s) :: gaps (max current e) day_end rest
      else gaps (max current e) day_end rest

/-- Model of `get_free_time` (core.py lines 417-450): not-loaded check, day lookup,
the whole working day when the date has no tree or an empty one, otherwise
the gap scan over the sorted intervals. -/
def get_free_time (m : Mgr) (date : Int) : Except Err (List (Int × Int)) :=
  if m.days = [] then Except.error Err.not_loaded
  else
    match dget m.day_by_date date with
    | none => Except.error Err.day_not_found
    | some day =>
        match dget m.interval_trees date with
        | none => Except.ok [(day.start, day.end_)]
        | some t =>
            if t.is_empty then Except.ok [(day.start, day.end_)]
            else Except.ok (gaps day.start day.end_ (Tree.get_all_intervals t))

/-- Model of `is_time_available` (core.py lines 452-478): not-loaded check, the
`start >= end` range check (lines 460-461), day lookup, the working-hours
bounds check returning `false` (lines 467-468), then emptiness of the
overlap query on that date's tree (`True` when the date has no tree or an
empty one). -/
def is_time_available (m : Mgr) (date s e : Int) : Except Err Bool :=
  if m.days = [] then Except.error Err.not_loaded
  else if s ≥ e then Except.error Err.invalid_range
  else
    match dget m.day_by_date date with
    | none => Except.error Err.day_not_found
    | some day =>
        if s < day.start ∨ e > day.end_ then Except.ok false
        else
          match dget m.interval_trees date with
          | none => Except.ok true
          | some t =>
              if t.is_empty then Except.ok true
              else Except.ok (decide ((Tree.find_overlapping s e t).length = 0))

/-- The scan of `find_free_slot` (core.py lines 486-493): the start of the
first free interval whose length reaches the requested duration. -/
def ffs_scan (dur : Int) : List (Int × Int) → Option Int
  | [] => none
  | (s, e) :: rest => if e - s ≥ dur then some s else ffs_scan dur rest

/-- Model of `find_free_slot` (core.py lines 480-495): `ValueError` for a
non-positive duration (lines 481-482), otherwise the first-fit scan over
`get_free_time` of that date. -/
def find_free_slot (m : Mgr) (date dur : Int) : Except Err (Option Int) :=
  if dur ≤ 0 then Except.error Err.invalid_duration
  else
    match get_free_time m date with
    | Except.error e => Except.error e
    | Except.ok gs => Except.ok (ffs_scan dur gs)

/-- Membership of a minute in the union of a list of half-open minute
ranges. -/
def covered (l : List (Int × Int)) (x : Int) : Prop :=
  ∃ p ∈ l, p.1 ≤ x ∧ x < p.2

instance (l : List (Int × Int)) (x : Int) : Decidable (covered l x) := by
  unfold covered
  infer_instance

/-- Variant of `covered` for the (start, end, id) triples stored in a tree. -/
def covered3 (l : List (Int × Int × Int)) (x : Int) : Prop :=
  ∃ p ∈ l, p.1 ≤ x ∧ x < p.2.1

instance (l : List (Int × Int × Int)) (x : Int) : Decidable (covered3 l x) := by
  unfold covered3
  infer_instance

/-- A small successfully loaded manager used by the concrete checks: one
working day (date key 100, 09:00-17:00 = minutes 540-1020, id 1) with one
slot 10:00-11:00 (minutes 600-660, id 1). -/
def sample_mgr : Mgr :=
  (set_data Mgr.init
    [⟨RawField.parsed 1, RawField.parsed 100, RawField.parsed 540, RawField.parsed 1020⟩]
    [⟨RawField.parsed 1, RawField.parsed 1, RawField.parsed 600, RawField.parsed 660⟩]).1

/-- A successfully loaded manager whose single slot 08:00-10:00 (minutes
480-600) starts before its working day 09:00-17:00 (minutes 540-1020). -/
def oob_mgr : Mgr :=
  (set_data Mgr.init
    [⟨RawField.parsed 1, RawField.parsed 100, RawField.parsed 540, RawField.parsed 1020⟩]
    [⟨RawField.parsed 1, RawField.parsed 1, RawField.parsed 480, RawField.parsed 600⟩]).1

namespace Tree

theorem maxEndOk_nil : maxEndOk nil := trivial

theorem maxEndOk_node {c s e id me l r} :
    maxEndOk (node c s e id me l r) ↔
      me = children_max_end e l r ∧ maxEndOk l ∧ maxEndOk r := Iff.rfl

theorem bst_node {c s e id me l r} :
    bst (node c s e id me l r) ↔
      (∀ x ∈ inorder l, x.1 ≤ s) ∧ (∀ x ∈ inorder r, s ≤ x.1) ∧ bst l ∧ bst r :=
  Iff.rfl

theorem is_empty_iff {t : Tree} : is_empty t = true ↔ t = nil := by
  cases t <;> simp [is_empty]

theorem children_max_end_congr {l₁ l₂ r₁ r₂ : Tree} (e : Int)
    (hl : rootMe? l₁ = rootMe? l₂) (hr : rootMe? r₁ = rootMe? r₂) :
    children_max_end e l₁ r₁ = children_max_end e l₂ r₂ := by
  cases l₁ <;> cases l₂ <;> cases r₁ <;> cases r₂ <;>
    simp_all [children_max_end, rootMe?]

theorem Frame.cme_congr (f : Frame) {t₁ t₂ : Tree} (h : rootMe? t₁ = rootMe? t₂) :
    f.cme t₁ = f.cme t₂ := by
  cases hd : f.dir <;>
    · simp only [Frame.cme, hd]
      exact children_max_end_congr _ (by simp [h]) (by simp [h])

theorem rootMe?_fill (f : Frame) (t : Tree) : rootMe? (f.fill t) = some f.max_end := by
  cases hd : f.dir <;> simp [Frame.fill, hd, rootMe?]

theorem inorder_fill_left {f : Frame} (hd : f.dir = Dir.left) (t : Tree) :
    inorder (f.fill t) = inorder t ++ (f.start, f.end_, f.slot_id) :: inorder f.sibling := by
  simp [Frame.fill, hd, inorder]

theorem inorder_fill_right {f : Frame} (hd : f.dir = Dir.right) (t : Tree) :
    inorder (f.fill t) = inorder f.sibling ++ (f.start, f.end_, f.slot_id) :: inorder t := by
  simp [Frame.fill, hd, inorder]

theorem inorder_fill_congr (f : Frame) {t₁ t₂ : Tree} (h : inorder t₁ = inorder t₂) :
    inorder (f.fill t₁) = inorder (f.fill t₂) := by
  cases hd : f.dir
  · rw [inorder_fill_left hd, inorder_fill_left hd, h]
  · rw [inorder_fill_right hd, inorder_fill_right hd, h]

theorem maxEndOk_fill_iff (f : Frame) (t : Tree) :
    maxEndOk (f.fill t) ↔ f.max_end = f.cme t ∧ maxEndOk t ∧ maxEndOk f.sibling := by
  cases hd : f.dir <;>
    (simp only [Frame.fill, Frame.cme, hd, maxEndOk]; try tauto)

theorem bst_fill_iff (f : Frame) (t : Tree) :
    bst (f.fill t) ↔ f.bstOk t ∧ bst t ∧ bst f.sibling := by
  cases hd : f.dir <;> simp only [Frame.fill, Frame.bstOk, hd, bst] <;> tauto

theorem Frame.bstOk_congr (f : Frame) {t₁ t₂ : Tree} (h : inorder t₁ = inorder t₂) :
    f.bstOk t₁ ↔ f.bstOk t₂ := by
  cases hd : f.dir <;> simp only [Frame.bstOk, hd, h]

theorem bst_plug_iff : ∀ (ctx : List Frame) (t : Tree),
    bst (plug t ctx) ↔ bst t ∧ bstCtx t ctx
  | [], t => by simp [plug, bstCtx]
  | f :: rest, t => by
      rw [plug, bst_plug_iff rest, bst_fill_iff]
      simp only [bstCtx]; tauto

theorem maxEndOk_plug_iff : ∀ (ctx : List Frame) (t : Tree),
    maxEndOk (plug t ctx) ↔ maxEndOk t ∧ meCtx t ctx
  | [], t => by simp [plug, meCtx]
  | f :: rest, t => by
      rw [plug, maxEndOk_plug_iff rest, maxEndOk_fill_iff]
      simp only [meCtx]; tauto

theorem bstCtx_congr : ∀ (ctx : List Frame) {t₁ t₂ : Tree},
    inorder t₁ = inorder t₂ → (bstCtx t₁ ctx ↔ bstCtx t₂ ctx)
  | [], _, _, _ => Iff.rfl
  | f :: rest, t₁, t₂, h => by
      simp only [bstCtx]
      rw [Frame.bstOk_congr f h, bstCtx_congr rest (inorder_fill_congr f h)]

theorem meCtx_congr : ∀ (ctx : List Frame) {t₁ t₂ : Tree},
    rootMe? t₁ = rootMe? t₂ → (meCtx t₁ ctx ↔ meCtx t₂ ctx)
  | [], _, _, _ => Iff.rfl
  | f :: rest, t₁, t₂, h => by
      have hf : rootMe? (f.fill t₁) = rootMe? (f.fill t₂) := by
        simp only [rootMe?_fill]
      simp only [meCtx]
      rw [Frame.cme_congr f h, meCtx_congr rest hf]

theorem inorder_plug_congr : ∀ (ctx : List Frame) {t₁ t₂ : Tree},
    inorder t₁ = inorder t₂ → inorder (plug t₁ ctx) = inorder (plug t₂ ctx)
  | [], _, _, h => h
  | f :: rest, _, _, h => by
      simp only [plug]; exact inorder_plug_congr rest (inorder_fill_congr f h)

theorem inorder_update_max_end (t : Tree) : inorder (update_max_end t) = inorder t := by
  cases t <;> simp [update_max_end, inorder]

theorem inorder_blacken_root (t : Tree) : inorder (blacken_root t) = inorder t := by
  cases t <;> simp [blacken_root, inorder]

theorem bst_blacken_root (t : Tree) : bst (blacken_root t) ↔ bst t := by
  cases t <;> simp [blacken_root, bst]

theorem maxEndOk_blacken_root (t : Tree) : maxEndOk (blacken_root t) ↔ maxEndOk t := by
  cases t <;> simp [blacken_root, maxEndOk]

theorem rootMe?_blacken_root (t : Tree) : rootMe? (blacken_root t) = rootMe? t := by
  cases t <;> simp [blacken_root, rootMe?]

theorem inorder_left_rotate (t : Tree) : inorder (left_rotate t) = inorder t := by
  cases t with
  | nil => rfl
  | node cx sx ex idx mex lx r =>
      cases r <;> simp [left_rotate, update_max_end, inorder]

theorem inorder_right_rotate (t : Tree) : inorder (right_rotate t) = inorder t := by
  cases t with
  | nil => rfl
  | node cy sy ey idy mey l ry =>
      cases l <;> simp [right_rotate, update_max_end, inorder]

theorem bst_left_rotate {t : Tree} (h : bst t) : bst (left_rotate t) := by
  cases t with
  | nil => exact h
  | node cx sx ex idx mex lx r =>
      cases r with
      | nil => exact h
      | node cy sy ey idy mey ly ry =>
          rw [bst_node] at h
          obtain ⟨hL, hR, hblx, hby⟩ := h
          rw [bst_node] at hby
          obtain ⟨hyl, hyr, hbly, hbry⟩ := hby
          have hxy : sx ≤ sy := hR (sy, ey, idy) (by simp [inorder])
          have hRly : ∀ x ∈ inorder ly, sx ≤ x.1 := fun x hx =>
            hR x (by simp only [inorder, List.mem_append, List.mem_cons]; tauto)
          have hRry : ∀ x ∈ inorder ry, sx ≤ x.1 := fun x hx =>
            hR x (by simp only [inorder, List.mem_append, List.mem_cons]; tauto)
          simp only [left_rotate, update_max_end]
          rw [bst_node, bst_node]
          refine ⟨?_, hyr, ⟨hL, hRly, hblx, hbly⟩, hbry⟩
          intro x hx
          simp only [inorder, List.mem_append, List.mem_cons] at hx
          rcases hx with hx | hx | hx
          · exact le_trans (hL x hx) hxy
          · subst hx; exact hxy
          · exact hyl x hx

theorem bst_right_rotate {t : Tree} (h : bst t) : bst (right_rotate t) := by
  cases t with
  | nil => exact h
  | node cy sy ey idy mey l ry =>
      cases l with
      | nil => exact h
      | node cx sx ex idx mex lx rx =>
          rw [bst_node] at h
          obtain ⟨hL, hR, hbx, hbry⟩ := h
          rw [bst_node] at hbx
          obtain ⟨hxl, hxr, hblx, hbrx⟩ := hbx
          have hxy : sx ≤ sy := hL (sx, ex, idx) (by simp [inorder])
          have hLrx : ∀ x ∈ inorder rx, x.1 ≤ sy := fun x hx =>
            hL x (by simp only [inorder, List.mem_append, List.mem_cons]; tauto)
          simp only [right_rotate, update_max_end]
          rw [bst_node, bst_node]
          refine ⟨hxl, ?_, hblx, hLrx, hR, hbrx, hbry⟩
          intro x hx
          simp only [inorder, List.mem_append, List.mem_cons] at hx
          rcases hx with hx | hx | hx
          · exact hxr x hx
          · subst hx; exact hxy
          · exact le_trans hxy (hR x hx)

theorem maxEndOk_left_rotate {t : Tree} (h : maxEndOk t) : maxEndOk (left_rotate t) := by
  cases t with
  | nil => exact h
  | node cx sx ex idx mex lx r =>
      cases r with
      | nil => exact h
      | node cy sy ey idy mey ly ry =>
          obtain ⟨-, hlx, -, hly, hry⟩ := by simpa [maxEndOk] using h
          simp [left_rotate, update_max_end, maxEndOk, hlx, hly, hry]

theorem maxEndOk_right_rotate {t : Tree} (h : maxEndOk t) : maxEndOk (right_rotate t) := by
  cases t with
  | nil => exact h
  | node cy sy ey idy mey l ry =>
      cases l with
      | nil => exact h
      | node cx sx ex idx mex lx rx =>
          obtain ⟨-, ⟨-, hlx, hrx⟩, hry⟩ := by simpa [maxEndOk] using h
          simp [right_rotate, update_max_end, maxEndOk, hlx, hrx, hry]

theorem rootMe?_left_rotate {t : Tree} (h : maxEndOk t) :
    rootMe? (left_rotate t) = rootMe? t := by
  cases t with
  | nil => rfl
  | node cx sx ex idx mex lx r =>
      cases r with
      | nil => rfl
      | node cy sy ey idy mey ly ry =>
          obtain ⟨hm, -, hm2, -, -⟩ := by simpa [maxEndOk] using h
          subst hm hm2
          simp only [left_rotate, update_max_end, rootMe?, Option.some.injEq]
          cases lx <;> cases ly <;> cases ry <;> simp [children_max_end] <;> omega

theorem rootMe?_right_rotate {t : Tree} (h : maxEndOk t) :
    rootMe? (right_rotate t) = rootMe? t := by
  cases t with
  | nil => rfl
  | node cy sy ey idy mey l ry =>
      cases l with
      | nil => rfl
      | node cx sx ex idx mex lx rx =>
          obtain ⟨hm, ⟨hm2, -, -⟩, -⟩ := by simpa [maxEndOk] using h
          subst hm hm2
          simp only [right_rotate, update_max_end, rootMe?, Option.some.injEq]
          cases lx <;> cases rx <;> cases ry <;> simp [children_max_end] <;> omega

theorem update_max_end_leaf (c : Color) (s e id me : Int) :
    update_max_end (node c s e id me nil nil) = node c s e id e nil nil := rfl

theorem descend_context (s : Int) (t : Tree) : ∀ (c₁ c₂ : List Frame),
    descend s t (c₁ ++ c₂) = descend s t c₁ ++ c₂ := by
  induction t with
  | nil => intro c₁ c₂; rfl
  | node c ns ne nid me l r ihl ihr =>
      intro c₁ c₂
      by_cases hs : s ≤ ns
      · simp only [descend, if_pos hs]
        rw [← List.cons_append]
        exact ihl _ _
      · simp only [descend, if_neg hs]
        rw [← List.cons_append]
        exact ihr _ _

theorem descend_append (s : Int) (t : Tree) (ctx : List Frame) :
    descend s t ctx = descend s t [] ++ ctx :=
  descend_context s t [] ctx

theorem update_path_append (c₁ : List Frame) : ∀ (c₂ : List Frame) (t : Tree),
    update_path t (c₁ ++ c₂) =
      update_path t c₁ ++ update_path (plug t (update_path t c₁)) c₂ := by
  induction c₁ with
  | nil => intro c₂ t; simp [update_path, plug]
  | cons f c₁ ih => intro c₂ t; simp [update_path, plug, ih]

theorem plug_append (c₁ : List Frame) : ∀ (c₂ : List Frame) (t : Tree),
    plug t (c₁ ++ c₂) = plug (plug t c₁) c₂ := by
  induction c₁ with
  | nil => intro c₂ t; rfl
  | cons f c₁ ih => intro c₂ t; simp [plug, ih]

/-- The tree handed to `_insert_fixup` (rebuilt along the parent pointers) is
exactly the simple recursive insertion `bst_insert`. -/
theorem plug_update_descend (s e id : Int) : ∀ (t : Tree),
    plug (node Color.red s e id e nil nil)
        (update_path (node Color.red s e id e nil nil) (descend s t [])) =
      bst_insert s e id t := by
  intro t
  induction t with
  | nil => rfl
  | node c ns ne nid me l r ihl ihr =>
      by_cases hs : s ≤ ns
      · simp only [descend, if_pos hs, bst_insert]
        rw [descend_append, update_path_append, plug_append, ihl]
        simp [update_path, plug, Frame.update, Frame.cme, Frame.fill]
      · simp only [descend, if_neg hs, bst_insert]
        rw [descend_append, update_path_append, plug_append, ihr]
        simp [update_path, plug, Frame.update, Frame.cme, Frame.fill]

theorem perm_inorder_bst_insert (s e id : Int) : ∀ (t : Tree),
    (inorder (bst_insert s e id t)).Perm ((s, e, id) :: inorder t)
  | nil => by simp [bst_insert, inorder]
  | node c ns ne nid me l r => by
      by_cases hs : s ≤ ns
      · simp only [bst_insert, if_pos hs, inorder]
        have h := (perm_inorder_bst_insert s e id l).append_right
          ((ns, ne, nid) :: inorder r)
        simpa using h
      · simp only [bst_insert, if_neg hs, inorder]
        have h1 := ((perm_inorder_bst_insert s e id r).cons
          (ns, ne, nid)).append_left (inorder l)
        refine h1.trans ?_
        have h2 := @List.perm_middle _ (s, e, id)
          (inorder l ++ [(ns, ne, nid)]) (inorder r)
        simpa using h2

theorem mem_inorder_bst_insert {s e id : Int} {t : Tree} {x : Int × Int × Int}
    (hx : x ∈ inorder (bst_insert s e id t)) : x = (s, e, id) ∨ x ∈ inorder t := by
  have := (perm_inorder_bst_insert s e id t).mem_iff.mp hx
  simpa using this

theorem bst_bst_insert (s e id : Int) : ∀ {t : Tree}, bst t → bst (bst_insert s e id t)
  | nil, _ => by simp [bst_insert, bst, inorder]
  | node c ns ne nid me l r, h => by
      rw [bst_node] at h
      obtain ⟨hL, hR, hbl, hbr⟩ := h
      by_cases hs : s ≤ ns
      · simp only [bst_insert, if_pos hs]
        rw [bst_node]
        refine ⟨?_, hR, bst_bst_insert s e id hbl, hbr⟩
        intro x hx
        rcases mem_inorder_bst_insert hx with rfl | hx
        · exact hs
        · exact hL x hx
      · simp only [bst_insert, if_neg hs]
        rw [bst_node]
        refine ⟨hL, ?_, hbl, bst_bst_insert s e id hbr⟩
        intro x hx
        rcases mem_inorder_bst_insert hx with rfl | hx
        · exact le_of_lt (lt_of_not_le hs)
        · exact hR x hx

theorem maxEndOk_bst_insert (s e id : Int) : ∀ {t : Tree},
    maxEndOk t → maxEndOk (bst_insert s e id t)
  | nil, _ => by simp [bst_insert, maxEndOk, children_max_end]
  | node c ns ne nid me l r, h => by
      rw [maxEndOk_node] at h
      obtain ⟨-, hl, hr⟩ := h
      by_cases hs : s ≤ ns
      · simp only [bst_insert, if_pos hs]
        exact ⟨rfl, maxEndOk_bst_insert s e id hl, hr⟩
      · simp only [bst_insert, if_neg hs]
        exact ⟨rfl, hl, maxEndOk_bst_insert s e id hr⟩

/-- The rotation exit of the fixup loop, left-parent branch (core.py lines
129-138), lifted through the remaining context: rotating right at the
grandparent preserves the traversal, the search order, and the `max_end`
invariant of the whole rebuilt tree.  `P` is the parent subtree as rebuilt
before this step, `p_sub` the (possibly inner-rotated and) blackened parent
subtree, `gsib` the uncle. -/
theorem rotate_left_plug {gc : Color} {gs ge gid gme : Int} {P p_sub gsib : Tree}
    (rest : List Frame)
    (hA : inorder p_sub = inorder P)
    (hB : bst P → bst p_sub)
    (hC : maxEndOk P → maxEndOk p_sub ∧ rootMe? p_sub = rootMe? P) :
    inorder (plug (right_rotate (node Color.red gs ge gid gme p_sub gsib)) rest) =
        inorder (plug (node gc gs ge gid gme P gsib) rest) ∧
      (bst (plug (node gc gs ge gid gme P gsib) rest) →
        bst (plug (right_rotate (node Color.red gs ge gid gme p_sub gsib)) rest)) ∧
      (maxEndOk (plug (node gc gs ge gid gme P gsib) rest) →
        maxEndOk (plug (right_rotate (node Color.red gs ge gid gme p_sub gsib)) rest)) := by
  have hio : inorder (right_rotate (node Color.red gs ge gid gme p_sub gsib)) =
      inorder (node gc gs ge gid gme P gsib) := by
    rw [inorder_right_rotate]
    simp only [inorder, hA]
  refine ⟨inorder_plug_congr rest hio, ?_, ?_⟩
  · intro hb
    rw [bst_plug_iff] at hb ⊢
    refine ⟨?_, (bstCtx_congr rest hio).mpr hb.2⟩
    obtain ⟨hXL, hXR, hbP, hbsib⟩ := (bst_node).mp hb.1
    exact bst_right_rotate ((bst_node).mpr
      ⟨fun x hx => hXL x (hA ▸ hx), hXR, hB hbP, hbsib⟩)
  · intro hm
    rw [maxEndOk_plug_iff] at hm ⊢
    obtain ⟨hgme, hmP, hmsib⟩ := (maxEndOk_node).mp hm.1
    obtain ⟨hok, hroot⟩ := hC hmP
    have hmY : maxEndOk (node Color.red gs ge gid gme p_sub gsib) :=
      (maxEndOk_node).mpr
        ⟨hgme.trans (children_max_end_congr _ hroot.symm rfl), hok, hmsib⟩
    refine ⟨maxEndOk_right_rotate hmY, (meCtx_congr rest ?_).mpr hm.2⟩
    rw [rootMe?_right_rotate hmY]; rfl

/-- Mirror image of `rotate_left_plug` for the right-parent branch
(core.py lines 150-159). -/
theorem rotate_right_plug {gc : Color} {gs ge gid gme : Int} {P p_sub gsib : Tree}
    (rest : List Frame)
    (hA : inorder p_sub = inorder P)
    (hB : bst P → bst p_sub)
    (hC : maxEndOk P → maxEndOk p_sub ∧ rootMe? p_sub = rootMe? P) :
    inorder (plug (left_rotate (node Color.red gs ge gid gme gsib p_sub)) rest) =
        inorder (plug (node gc gs ge gid gme gsib P) rest) ∧
      (bst (plug (node gc gs ge gid gme gsib P) rest) →
        bst (plug (left_rotate (node Color.red gs ge gid gme gsib p_sub)) rest)) ∧
      (maxEndOk (plug (node gc gs ge gid gme gsib P) rest) →
        maxEndOk (plug (left_rotate (node Color.red gs ge gid gme gsib p_sub)) rest)) := by
  have hio : inorder (left_rotate (node Color.red gs ge gid gme gsib p_sub)) =
      inorder (node gc gs ge gid gme gsib P) := by
    rw [inorder_left_rotate]
    simp only [inorder, hA]
  refine ⟨inorder_plug_congr rest hio, ?_, ?_⟩
  · intro hb
    rw [bst_plug_iff] at hb ⊢
    refine ⟨?_, (bstCtx_congr rest hio).mpr hb.2⟩
    obtain ⟨hXL, hXR, hbsib, hbP⟩ := (bst_node).mp hb.1
    exact bst_left_rotate ((bst_node).mpr
      ⟨hXL, fun x hx => hXR x (hA ▸ hx), hbsib, hB hbP⟩)
  · intro hm
    rw [maxEndOk_plug_iff] at hm ⊢
    obtain ⟨hgme, hmsib, hmP⟩ := (maxEndOk_node).mp hm.1
    obtain ⟨hok, hroot⟩ := hC hmP
    have hmY : maxEndOk (node Color.red gs ge gid gme gsib p_sub) :=
      (maxEndOk_node).mpr
        ⟨hgme.trans (children_max_end_congr _ rfl hroot.symm), hmsib, hok⟩
    refine ⟨maxEndOk_left_rotate hmY, (meCtx_congr rest ?_).mpr hm.2⟩
    rw [rootMe?_left_rotate hmY]; rfl

/-- The loop of `_insert_fixup` (core.py lines 112-159) preserves the in-order
traversal, the search order, and the `max_end` invariant of the tree it
would denote if rebuilt unchanged along the parent pointers. -/
theorem fixup_loop_spec : ∀ (ctx : List Frame) (t : Tree),
    inorder (fixup_loop t ctx) = inorder (plug t ctx) ∧
    (bst (plug t ctx) → bst (fixup_loop t ctx)) ∧
    (maxEndOk (plug t ctx) → maxEndOk (fixup_loop t ctx))
  | [], _ => ⟨rfl, id, id⟩
  | [f], t => by
      obtain ⟨fd, fc, fs, fe, fid, fme, fsib⟩ := f
      cases fc with
      | black => exact ⟨rfl, id, id⟩
      | red =>
          cases fd with
          | left =>
              exact ⟨(inorder_blacken_root _).trans (inorder_right_rotate _),
                fun hb => (bst_blacken_root _).mpr (bst_right_rotate hb),
                fun hm => (maxEndOk_blacken_root _).mpr (maxEndOk_right_rotate hm)⟩
          | right => exact ⟨rfl, fun hb => hb, fun hm => hm⟩
  | f :: g :: rest, t => by
      obtain ⟨fd, fc, fs, fe, fid, fme, fsib⟩ := f
      obtain ⟨gd, gc, gs, ge, gid, gme, gsib⟩ := g
      cases fc with
      | black => exact ⟨rfl, id, id⟩
      | red =>
          cases gd with
          | left =>
              match gsib with
              | node Color.red us ue uid ume ul ur =>
                  cases fd with
                  | left =>
                      obtain ⟨ih1, ih2, ih3⟩ := fixup_loop_spec rest
                        (node Color.red gs ge gid gme
                          (node Color.black fs fe fid fme t fsib)
                          (node Color.black us ue uid ume ul ur))
                      refine ⟨ih1.trans (inorder_plug_congr rest rfl),
                        fun hb => ih2 ?_, fun hm => ih3 ?_⟩
                      · have hb' := (bst_plug_iff rest _).mp hb
                        refine (bst_plug_iff rest _).mpr
                          ⟨hb'.1, (bstCtx_congr rest ?_).mpr hb'.2⟩
                        rfl
                      · have hm' := (maxEndOk_plug_iff rest _).mp hm
                        refine (maxEndOk_plug_iff rest _).mpr
                          ⟨hm'.1, (meCtx_congr rest ?_).mpr hm'.2⟩
                        rfl
                  | right =>
                      obtain ⟨ih1, ih2, ih3⟩ := fixup_loop_spec rest
                        (node Color.red gs ge gid gme
                          (node Color.black fs fe fid fme fsib t)
                          (node Color.black us ue uid ume ul ur))
                      refine ⟨ih1.trans (inorder_plug_congr rest rfl),
                        fun hb => ih2 ?_, fun hm => ih3 ?_⟩
                      · have hb' := (bst_plug_iff rest _).mp hb
                        refine (bst_plug_iff rest _).mpr
                          ⟨hb'.1, (bstCtx_congr rest ?_).mpr hb'.2⟩
                        rfl
                      · have hm' := (maxEndOk_plug_iff rest _).mp hm
                        refine (maxEndOk_plug_iff rest _).mpr
                          ⟨hm'.1, (meCtx_congr rest ?_).mpr hm'.2⟩
                        rfl
              | nil =>
                  cases fd with
                  | left =>
                      exact rotate_left_plug rest (inorder_blacken_root _)
                        (fun hb => (bst_blacken_root _).mpr hb)
                        (fun hm => ⟨(maxEndOk_blacken_root _).mpr hm,
                          rootMe?_blacken_root _⟩)
                  | right =>
                      exact rotate_left_plug rest
                        ((inorder_blacken_root _).trans (inorder_left_rotate _))
                        (fun hb => (bst_blacken_root _).mpr (bst_left_rotate hb))
                        (fun hm => ⟨(maxEndOk_blacken_root _).mpr
                            (maxEndOk_left_rotate hm),
                          (rootMe?_blacken_root _).trans (rootMe?_left_rotate hm)⟩)
              | node Color.black us ue uid ume ul ur =>
                  cases fd with
                  | left =>
                      exact rotate_left_plug rest (inorder_blacken_root _)
                        (fun hb => (bst_blacken_root _).mpr hb)
                        (fun hm => ⟨(maxEndOk_blacken_root _).mpr hm,
                          rootMe?_blacken_root _⟩)
                  | right =>
                      exact rotate_left_plug rest
                        ((inorder_blacken_root _).trans (inorder_left_rotate _))
                        (fun hb => (bst_blacken_root _).mpr (bst_left_rotate hb))
                        (fun hm => ⟨(maxEndOk_blacken_root _).mpr
                            (maxEndOk_left_rotate hm),
                          (rootMe?_blacken_root _).trans (rootMe?_left_rotate hm)⟩)
          | right =>
              match gsib with
              | node Color.red us ue uid ume ul ur =>
                  cases fd with
                  | left =>
                      obtain ⟨ih1, ih2, ih3⟩ := fixup_loop_spec rest
                        (node Color.red gs ge gid gme
                          (node Color.black us ue uid ume ul ur)
                          (node Color.black fs fe fid fme t fsib))
                      refine ⟨ih1.trans (inorder_plug_congr rest rfl),
                        fun hb => ih2 ?_, fun hm => ih3 ?_⟩
                      · have hb' := (bst_plug_iff rest _).mp hb
                        refine (bst_plug_iff rest _).mpr
                          ⟨hb'.1, (bstCtx_congr rest ?_).mpr hb'.2⟩
                        rfl
                      · have hm' := (maxEndOk_plug_iff rest _).mp hm
                        refine (maxEndOk_plug_iff rest _).mpr
                          ⟨hm'.1, (meCtx_congr rest ?_).mpr hm'.2⟩
                        rfl
                  | right =>
                      obtain ⟨ih1, ih2, ih3⟩ := fixup_loop_spec rest
                        (node Color.red gs ge gid gme
                          (node Color.black us ue uid ume ul ur)
                          (node Color.black fs fe fid fme fsib t))
                      refine ⟨ih1.trans (inorder_plug_congr rest rfl),
                        fun hb => ih2 ?_, fun hm => ih3 ?_⟩
                      · have hb' := (bst_plug_iff rest _).mp hb
                        refine (bst_plug_iff rest _).mpr
                          ⟨hb'.1, (bstCtx_congr rest ?_).mpr hb'.2⟩
                        rfl
                      · have hm' := (maxEndOk_plug_iff rest _).mp hm
                        refine (maxEndOk_plug_iff rest _).mpr
                          ⟨hm'.1, (meCtx_congr rest ?_).mpr hm'.2⟩
                        rfl
              | nil =>
                  cases fd with
                  | left =>
                      exact rotate_right_plug rest
                        ((inorder_blacken_root _).trans (inorder_right_rotate _))
                        (fun hb => (bst_blacken_root _).mpr (bst_right_rotate hb))
                        (fun hm => ⟨(maxEndOk_blacken_root _).mpr
                            (maxEndOk_right_rotate hm),
                          (rootMe?_blacken_root _).trans (rootMe?_right_rotate hm)⟩)
                  | right =>
                      exact rotate_right_plug rest (inorder_blacken_root _)
                        (fun hb => (bst_blacken_root _).mpr hb)
                        (fun hm => ⟨(maxEndOk_blacken_root _).mpr hm,
                          rootMe?_blacken_root _⟩)
              | node Color.black us ue uid ume ul ur =>
                  cases fd with
                  | left =>
                      exact rotate_right_plug rest
                        ((inorder_blacken_root _).trans (inorder_right_rotate _))
                        (fun hb => (bst_blacken_root _).mpr (bst_right_rotate hb))
                        (fun hm => ⟨(maxEndOk_blacken_root _).mpr
                            (maxEndOk_right_rotate hm),
                          (rootMe?_blacken_root _).trans (rootMe?_right_rotate hm)⟩)
                  | right =>
                      exact rotate_right_plug rest (inorder_blacken_root _)
                        (fun hb => (bst_blacken_root _).mpr hb)
                        (fun hm => ⟨(maxEndOk_blacken_root _).mpr hm,
                          rootMe?_blacken_root _⟩)

theorem inorder_insert (t : Tree) (s e id : Int) :
    inorder (insert t s e id) = inorder (bst_insert s e id t) := by
  have h := (fixup_loop_spec
    (update_path (node Color.red s e id e nil nil) (descend s t []))
    (node Color.red s e id e nil nil)).1
  calc inorder (insert t s e id)
      = inorder (fixup_loop (node Color.red s e id e nil nil)
          (update_path (node Color.red s e id e nil nil) (descend s t []))) :=
        inorder_blacken_root _
    _ = inorder (plug (node Color.red s e id e nil nil)
          (update_path (node Color.red s e id e nil nil) (descend s t []))) := h
    _ = inorder (bst_insert s e id t) := by rw [plug_update_descend]

theorem perm_inorder_insert (t : Tree) (s e id : Int) :
    (inorder (insert t s e id)).Perm ((s, e, id) :: inorder t) := by
  rw [inorder_insert]
  exact perm_inorder_bst_insert s e id t

theorem insert_bst (s e id : Int) {t : Tree} (h : bst t) : bst (insert t s e id) := by
  have h1 : bst (plug (node Color.red s e id e nil nil)
      (update_path (node Color.red s e id e nil nil) (descend s t []))) := by
    rw [plug_update_descend]
    exact bst_bst_insert s e id h
  exact (bst_blacken_root _).mpr
    ((fixup_loop_spec (update_path (node Color.red s e id e nil nil) (descend s t []))
      (node Color.red s e id e nil nil)).2.1 h1)

theorem insert_maxEndOk (s e id : Int) {t : Tree} (h : maxEndOk t) :
    maxEndOk (insert t s e id) := by
  have h1 : maxEndOk (plug (node Color.red s e id e nil nil)
      (update_path (node Color.red s e id e nil nil) (descend s t []))) := by
    rw [plug_update_descend]
    exact maxEndOk_bst_insert s e id h
  exact (maxEndOk_blacken_root _).mpr
    ((fixup_loop_spec (update_path (node Color.red s e id e nil nil) (descend s t []))
      (node Color.red s e id e nil nil)).2.2 h1)

theorem length_inorder (t : Tree) : (inorder t).length = size t := by
  induction t with
  | nil => rfl
  | node c s e id me l r ihl ihr =>
      simp only [inorder, size, List.length_append, List.length_cons, ihl, ihr]
      omega

theorem size_insert (t : Tree) (s e id : Int) :
    size (insert t s e id) = size t + 1 := by
  have h := (perm_inorder_insert t s e id).length_eq
  rw [length_inorder, List.length_cons, length_inorder] at h
  exact h

theorem perm_inorder_foldl : ∀ (ops : List (Int × Int × Int)) (t : Tree),
    (inorder (ops.foldl (fun t x => insert t x.1 x.2.1 x.2.2) t)).Perm
      (ops ++ inorder t)
  | [], t => by simp [List.foldl]
  | x :: ops, t => by
      obtain ⟨a, b, c⟩ := x
      simp only [List.foldl]
      refine (perm_inorder_foldl ops _).trans ?_
      have h1 : (ops ++ inorder (insert t a b c)).Perm (ops ++ (a, b, c) :: inorder t) :=
        (perm_inorder_insert t a b c).append_left ops
      refine h1.trans ?_
      exact @List.perm_middle _ (a, b, c) ops (inorder t)

/-- Everything ever inserted is stored, once per insertion: the traversal of
a tree built by a sequence of inserts is a permutation of the inserted
triples. -/
theorem perm_inorder_build (ops : List (Int × Int × Int)) :
    (inorder (build ops)).Perm ops := by
  have h := perm_inorder_foldl ops nil
  simpa [build, inorder] using h

theorem bst_build (ops : List (Int × Int × Int)) : bst (build ops) := by
  suffices h : ∀ (l : List (Int × Int × Int)) (t : Tree), bst t →
      bst (l.foldl (fun t x => insert t x.1 x.2.1 x.2.2) t) from
    h ops nil trivial
  intro l
  induction l with
  | nil => intro t h; exact h
  | cons x l ih => intro t h; exact ih _ (insert_bst _ _ _ h)

theorem maxEndOk_build (ops : List (Int × Int × Int)) : maxEndOk (build ops) := by
  suffices h : ∀ (l : List (Int × Int × Int)) (t : Tree), maxEndOk t →
      maxEndOk (l.foldl (fun t x => insert t x.1 x.2.1 x.2.2) t) from
    h ops nil trivial
  intro l
  induction l with
  | nil => intro t h; exact h
  | cons x l ih => intro t h; exact ih _ (insert_maxEndOk _ _ _ h)

theorem size_build (ops : List (Int × Int × Int)) : size (build ops) = ops.length := by
  have h := (perm_inorder_build ops).length_eq
  rw [length_inorder] at h
  exact h

theorem overlaps_with_eq_true {s e qs qe : Int} :
    overlaps_with s e qs qe = true ↔ qs < e ∧ s < qe := by
  simp [overlaps_with]

theorem children_max_end_ge (e : Int) (l r : Tree) :
    e ≤ children_max_end e l r ∧
      (∀ ml, rootMe? l = some ml → ml ≤ children_max_end e l r) ∧
      (∀ mr, rootMe? r = some mr → mr ≤ children_max_end e l r) := by
  cases l <;> cases r <;> simp [children_max_end, rootMe?]

/-- Under the `maxEnd` invariant the cached root `max_end` bounds the `end`
of every interval in the subtree — the fact the left-prune of the search
relies on. -/
theorem end_le_rootMe : ∀ {t : Tree}, maxEndOk t → ∀ {me : Int},
    rootMe? t = some me → ∀ x ∈ inorder t, x.2.1 ≤ me
  | nil, _, me, hme, x, hx => by simp [inorder] at hx
  | node c s e id me' l r, h, me, hme, x, hx => by
      rw [maxEndOk_node] at h
      obtain ⟨hmeq, hl, hr⟩ := h
      obtain rfl : me' = me := by simpa [rootMe?] using hme
      rw [hmeq]
      obtain ⟨hge, hgl, hgr⟩ := children_max_end_ge e l r
      simp only [inorder, List.mem_append, List.mem_cons] at hx
      rcases hx with hx | hx | hx
      · cases l with
        | nil => simp [inorder] at hx
        | node cl sl el idl mel ll rl =>
            exact le_trans (end_le_rootMe hl rfl x hx) (hgl mel rfl)
      · subst hx; exact hge
      · cases r with
        | nil => simp [inorder] at hx
        | node cr sr er idr mer lr rr =>
            exact le_trans (end_le_rootMe hr rfl x hx) (hgr mer rfl)

theorem find_left_aux (qs qe : Int) {l : Tree} (hml : maxEndOk l)
    (ihl : (find_overlapping qs qe l).Perm
      (((inorder l).filter (fun x => overlaps_with x.1 x.2.1 qs qe)).map
        (fun x => x.2.2))) :
    (if (match l with
         | nil => false
         | node _ _ _ _ me _ _ => decide (me > qs)) = true
      then find_overlapping qs qe l else []).Perm
      (((inorder l).filter (fun x => overlaps_with x.1 x.2.1 qs qe)).map
        (fun x => x.2.2)) := by
  cases l with
  | nil => simp [inorder]
  | node cl sl el idl mel ll rl =>
      by_cases hq : mel > qs
      · simpa [hq] using ihl
      · have hnone : ∀ x ∈ inorder (node cl sl el idl mel ll rl),
            ¬(overlaps_with x.1 x.2.1 qs qe = true) := by
          intro x hx
          have hle := end_le_rootMe hml rfl x hx
          rw [overlaps_with_eq_true]
          omega
        simp [hq, List.filter_eq_nil_iff.mpr hnone]

theorem find_right_aux (qs qe s : Int) {r : Tree} (hR : ∀ x ∈ inorder r, s ≤ x.1)
    (ihr : (find_overlapping qs qe r).Perm
      (((inorder r).filter (fun x => overlaps_with x.1 x.2.1 qs qe)).map
        (fun x => x.2.2))) :
    (if (match r with
         | nil => false
         | node _ _ _ _ _ _ _ => decide (s < qe)) = true
      then find_overlapping qs qe r else []).Perm
      (((inorder r).filter (fun x => overlaps_with x.1 x.2.1 qs qe)).map
        (fun x => x.2.2)) := by
  cases r with
  | nil => simp [inorder]
  | node cr sr er idr mer lr rr =>
      by_cases hq : s < qe
      · simpa [hq] using ihr
      · have hnone : ∀ x ∈ inorder (node cr sr er idr mer lr rr),
            ¬(overlaps_with x.1 x.2.1 qs qe = true) := by
          intro x hx
          have hge := hR x hx
          rw [overlaps_with_eq_true]
          omega
        simp [hq, List.filter_eq_nil_iff.mpr hnone]

/-- The pruned traversal of `find_overlapping` agrees (as a multiset) with a
brute-force filter of the stored intervals by `overlaps_with`, provided the
search order and the `maxEnd` invariant hold — exactly the two invariants
`insert` maintains. -/
theorem find_overlapping_perm : ∀ {t : Tree}, bst t → maxEndOk t → ∀ (qs qe : Int),
    (find_overlapping qs qe t).Perm
      (((inorder t).filter (fun x => overlaps_with x.1 x.2.1 qs qe)).map
        (fun x => x.2.2))
  | nil, _, _, qs, qe => by simp [find_overlapping, inorder]
  | node c s e id me l r, hb, hm, qs, qe => by
      rw [bst_node] at hb
      obtain ⟨hL, hR, hbl, hbr⟩ := hb
      rw [maxEndOk_node] at hm
      obtain ⟨hmeq, hml, hmr⟩ := hm
      have hleft := find_left_aux qs qe hml (find_overlapping_perm hbl hml qs qe)
      have hright := find_right_aux qs qe s hR (find_overlapping_perm hbr hmr qs qe)
      simp only [find_overlapping, inorder]
      rw [List.filter_append, List.filter_cons, List.map_append]
      by_cases hov : overlaps_with s e qs qe = true
      · simp only [hov, if_true, List.map_cons]
        exact ((hleft.append hright).cons id).trans
          (@List.perm_middle _ id _ _).symm
      · simp only [hov, if_false, Bool.false_eq_true, List.map_cons]
        exact hleft.append hright

theorem get_all_intervals_perm (t : Tree) :
    (get_all_intervals t).Perm (inorder t) :=
  List.perm_insertionSort _ (inorder t)

theorem get_all_intervals_pairwise (t : Tree) :
    (get_all_intervals t).Pairwise (fun a b => tripleLe a b = true) :=
  List.sorted_insertionSort _ (inorder t)

theorem get_all_intervals_sorted_by_start (t : Tree) :
    (get_all_intervals t).Pairwise (fun a b => a.1 ≤ b.1) := by
  refine (get_all_intervals_pairwise t).imp ?_
  intro a b h
  simp only [tripleLe, Bool.or_eq_true, Bool.and_eq_true, decide_eq_true_eq] at h
  omega

/-- C1: for every sequence of inserted intervals and every query range, the
pruned traversal of `find_overlapping` returns exactly the identifiers a
brute-force scan of all stored intervals selects with the half-open overlap
test `not (end <= qs or start >= qe)` — as a multiset, hence also as a set
(the traversal emits each stored interval at most once). -/
theorem C1_find_overlapping_agrees_with_bruteforce
    (ops : List (Int × Int × Int)) (qs qe : Int) :
    (find_overlapping qs qe (build ops)).Perm
      (((get_all_intervals (build ops)).filter
        (fun x => overlaps_with x.1 x.2.1 qs qe)).map (fun x => x.2.2)) := by
  have h1 := find_overlapping_perm (bst_build ops) (maxEndOk_build ops) qs qe
  have h2 := ((get_all_intervals_perm (build ops)).filter
    (fun x => overlaps_with x.1 x.2.1 qs qe)).map (fun x => x.2.2)
  exact h1.trans h2.symm

/-- C2: after every sequence of `insert` operations (rebalancing rotations
included), every node of the resulting tree satisfies
`max_end = max(end, max_end left, max_end right)` with absent children
contributing nothing — the `maxEndOk` predicate read off `_update_max_end`. -/
theorem C2_maxEnd_invariant_after_inserts (ops : List (Int × Int × Int)) :
    maxEndOk (build ops) :=
  maxEndOk_build ops

/-- C5 counterexample: the zero-duration interval [5,5) is stored, yet
`find_overlapping(0, 10)` — a query range strictly containing the degenerate
point — returns its identifier, because `overlaps_with` evaluates
`not (5 <= 0 or 5 >= 10) = True`.  (The repository's own
`test_zero_length_intervals` asserts exactly this output.) -/
theorem C5_counterexample_zero_duration_returned :
    find_overlapping 0 10 (build [(5, 5, 1)]) = [1] := by decide

/-- C5 amended: a stored zero-duration interval `[p,p)` (with an identifier
that names only it) is returned by `findOverlapping(qs, qe)` iff
`qs < p < qe`, i.e. iff the query strictly contains the degenerate point; in
particular queries that merely touch `p` on either side do not return it. -/
theorem C5_amended_zero_duration_spec (ops : List (Int × Int × Int))
    (p idv qs qe : Int)
    (hmem : (p, p, idv) ∈ get_all_intervals (build ops))
    (huniq : ∀ x ∈ get_all_intervals (build ops), x.2.2 = idv → x = (p, p, idv)) :
    idv ∈ find_overlapping qs qe (build ops) ↔ (qs < p ∧ p < qe) := by
  have hperm := find_overlapping_perm (bst_build ops) (maxEndOk_build ops) qs qe
  rw [hperm.mem_iff]
  simp only [List.mem_map, List.mem_filter]
  constructor
  · rintro ⟨x, ⟨hx_mem, hx_ov⟩, hx_id⟩
    have hx_mem' : x ∈ get_all_intervals (build ops) :=
      (get_all_intervals_perm (build ops)).mem_iff.mpr hx_mem
    have hx_eq := huniq x hx_mem' hx_id
    rw [hx_eq] at hx_ov
    exact overlaps_with_eq_true.mp hx_ov
  · rintro ⟨h1, h2⟩
    refine ⟨(p, p, idv), ⟨?_, ?_⟩, rfl⟩
    · exact (get_all_intervals_perm (build ops)).mem_iff.mp hmem
    · rw [overlaps_with_eq_true]; exact ⟨h1, h2⟩

theorem C5_amended_zero_duration_spec_witness :
    ((5, 5, 1) ∈ get_all_intervals (build [(5, 5, 1)]) ∧
      (∀ x ∈ get_all_intervals (build [(5, 5, 1)]), x.2.2 = 1 → x = (5, 5, 1))) ∧
    ((1 : Int) ∈ find_overlapping 0 10 (build [(5, 5, 1)]) ↔ ((0 : Int) < 5 ∧ (5 : Int) < 10)) :=
  ⟨⟨by decide, by decide⟩,
    C5_amended_zero_duration_spec [(5, 5, 1)] 5 1 0 10 (by decide) (by decide)⟩

/-- C6 counterexample: after inserting (5,20,1), (5,10,2), (5,30,3) — three
intervals with equal start — `get_all_intervals` returns them ordered by
(end, identifier), which is neither the insertion order (5,20,1),(5,10,2),
(5,30,3) nor the tree's in-order traversal (5,30,3),(5,10,2),(5,20,1):
Python's `sorted(result)` re-sorts the traversal lexicographically. -/
theorem C6_counterexample_tie_order :
    get_all_intervals (build [(5, 20, 1), (5, 10, 2), (5, 30, 3)]) =
        [(5, 10, 2), (5, 20, 1), (5, 30, 3)] ∧
      inorder (build [(5, 20, 1), (5, 10, 2), (5, 30, 3)]) =
        [(5, 30, 3), (5, 10, 2), (5, 20, 1)] ∧
      get_all_intervals (build [(5, 20, 1), (5, 10, 2), (5, 30, 3)]) ≠
        [(5, 20, 1), (5, 10, 2), (5, 30, 3)] ∧
      get_all_intervals (build [(5, 20, 1), (5, 10, 2), (5, 30, 3)]) ≠
        inorder (build [(5, 20, 1), (5, 10, 2), (5, 30, 3)]) := by
  refine ⟨by decide, by decide, by decide, by decide⟩

/-- C6 amended: `allIntervals()` returns all stored (start, end, identifier)
triples — one per insertion — sorted ascending lexicographically by
(start, end, identifier); in particular it is sorted ascending by `start`,
with equal-start ties broken by (end, identifier) rather than by insertion
or traversal order, and it is deterministic for identical insert
sequences (it is a function of the insert sequence). -/
theorem C6_amended_get_all_intervals_sorted (ops : List (Int × Int × Int)) :
    (get_all_intervals (build ops)).Perm ops ∧
      (get_all_intervals (build ops)).Pairwise (fun a b => tripleLe a b = true) ∧
      (get_all_intervals (build ops)).Pairwise (fun a b => a.1 ≤ b.1) :=
  ⟨(get_all_intervals_perm (build ops)).trans (perm_inorder_build ops),
    get_all_intervals_pairwise (build ops),
    get_all_intervals_sorted_by_start (build ops)⟩

/-- C8: `insert` always succeeds: it is a total function (the fixup loop is
modelled by a structural recursion that consumes the path to the root, two
frames per recoloring iteration), it raises nothing, and it grows the stored
multiset by exactly the one new interval — so duplicate and identical
intervals are kept as distinct nodes and the size counter grows by one. -/
theorem C8_insert_total_size_plus_one (t : Tree) (s e id : Int) :
    size (insert t s e id) = size t + 1 ∧
      (inorder (insert t s e id)).Perm ((s, e, id) :: inorder t) :=
  ⟨size_insert t s e id, perm_inorder_insert t s e id⟩

end Tree

/-! ### Claims about the schedule-index layer -/

/-- C3 counterexample: starting from a successfully loaded state (one day,
one slot), a second load whose day record parses but whose slot record is
missing a field raises the format error and yet leaves the days list
replaced with the new day — `set_data` assigns `self.days` before slot
parsing can fail, so the prior state is not left "exactly as it was". -/
theorem C3_counterexample_set_data_not_atomic :
    ((set_data sample_mgr
        [⟨RawField.parsed 2, RawField.parsed 200, RawField.parsed 600, RawField.parsed 1080⟩]
        [⟨RawField.parsed 9, RawField.missing, RawField.parsed 0, RawField.parsed 0⟩]).2 =
      some Err.format) ∧
    ((set_data sample_mgr
        [⟨RawField.parsed 2, RawField.parsed 200, RawField.parsed 600, RawField.parsed 1080⟩]
        [⟨RawField.parsed 9, RawField.missing, RawField.parsed 0, RawField.parsed 0⟩]).1.days ≠
      sample_mgr.days) :=
  ⟨by decide, by decide⟩

/-- C3 amended: a failing load never touches the three index maps or the
stored slot list; if a day record is malformed the whole state (days list
included) is untouched, while if all day records parse and a slot record is
malformed, the days list — and only the days list — has already been
replaced by the newly parsed days. -/
theorem C3_amended_set_data_failure_preserves_indexes (m : Mgr)
    (days : List RawDay) (slots : List RawTimeSlot) (err : Err)
    (h : (set_data m days slots).2 = some err) :
    (set_data m days slots).1.day_by_date = m.day_by_date ∧
    (set_data m days slots).1.day_by_id = m.day_by_id ∧
    (set_data m days slots).1.interval_trees = m.interval_trees ∧
    (set_data m days slots).1.timeslots = m.timeslots ∧
    ((days.mapM Day.from_dict = Except.error err ∧ (set_data m days slots).1 = m) ∨
      (∃ ds, days.mapM Day.from_dict = Except.ok ds ∧
        slots.mapM TimeSlot.from_dict = Except.error err ∧
        (set_data m days slots).1 = { m with days := ds })) := by
  simp only [set_data] at h ⊢
  split at h
  next e heq =>
      obtain rfl : e = err := by simpa using h
      exact ⟨rfl, rfl, rfl, rfl, Or.inl ⟨heq, rfl⟩⟩
  next ds heq =>
      split at h
      next e heq2 =>
          obtain rfl : e = err := by simpa using h
          exact ⟨rfl, rfl, rfl, rfl, Or.inr ⟨ds, heq, heq2, rfl⟩⟩
      next ts heq2 => simp at h

theorem C3_amended_set_data_failure_preserves_indexes_witness :
    ((set_data sample_mgr
        [⟨RawField.parsed 2, RawField.parsed 200, RawField.parsed 600, RawField.parsed 1080⟩]
        [⟨RawField.parsed 9, RawField.missing, RawField.parsed 0, RawField.parsed 0⟩]).2 =
      some Err.format) ∧
    ((set_data sample_mgr
        [⟨RawField.parsed 2, RawField.parsed 200, RawField.parsed 600, RawField.parsed 1080⟩]
        [⟨RawField.parsed 9, RawField.missing, RawField.parsed 0, RawField.parsed 0⟩]).1.day_by_date =
        sample_mgr.day_by_date ∧
      (set_data sample_mgr
        [⟨RawField.parsed 2, RawField.parsed 200, RawField.parsed 600, RawField.parsed 1080⟩]
        [⟨RawField.parsed 9, RawField.missing, RawField.parsed 0, RawField.parsed 0⟩]).1.day_by_id =
        sample_mgr.day_by_id ∧
      (set_data sample_mgr
        [⟨RawField.parsed 2, RawField.parsed 200, RawField.parsed 600, RawField.parsed 1080⟩]
        [⟨RawField.parsed 9, RawField.missing, RawField.parsed 0, RawField.parsed 0⟩]).1.interval_trees =
        sample_mgr.interval_trees ∧
      (set_data sample_mgr
        [⟨RawField.parsed 2, RawField.parsed 200, RawField.parsed 600, RawField.parsed 1080⟩]
        [⟨RawField.parsed 9, RawField.missing, RawField.parsed 0, RawField.parsed 0⟩]).1.timeslots =
        sample_mgr.timeslots ∧
      (([⟨RawField.parsed 2, RawField.parsed 200, RawField.parsed 600, RawField.parsed 1080⟩] :
            List RawDay).mapM Day.from_dict = Except.error Err.format ∧
          (set_data sample_mgr
            [⟨RawField.parsed 2, RawField.parsed 200, RawField.parsed 600, RawField.parsed 1080⟩]
            [⟨RawField.parsed 9, RawField.missing, RawField.parsed 0, RawField.parsed 0⟩]).1 =
            sample_mgr ∨
        (∃ ds, ([⟨RawField.parsed 2, RawField.parsed 200, RawField.parsed 600,
              RawField.parsed 1080⟩] : List RawDay).mapM Day.from_dict = Except.ok ds ∧
          ([⟨RawField.parsed 9, RawField.missing, RawField.parsed 0, RawField.parsed 0⟩] :
              List RawTimeSlot).mapM TimeSlot.from_dict = Except.error Err.format ∧
          (set_data sample_mgr
            [⟨RawField.parsed 2, RawField.parsed 200, RawField.parsed 600, RawField.parsed 1080⟩]
            [⟨RawField.parsed 9, RawField.missing, RawField.parsed 0, RawField.parsed 0⟩]).1 =
            { sample_mgr with
                days := ds }))) :=
  ⟨by decide,
    C3_amended_set_data_failure_preserves_indexes sample_mgr
      [⟨RawField.parsed 2, RawField.parsed 200, RawField.parsed 600, RawField.parsed 1080⟩]
      [⟨RawField.parsed 9, RawField.missing, RawField.parsed 0, RawField.parsed 0⟩]
      Err.format (by decide)⟩

theorem build_indexes_nil_days (ts : List TimeSlot) :
    build_indexes [] ts = ([], [], []) := by
  simp only [build_indexes, List.foldl_nil]
  suffices h : ∀ (l : List TimeSlot) (acc : List (Int × Tree)),
      (l.foldl (fun m sl =>
        match dget ([] : List (Int × Day)) sl.day_id with
        | none => m
        | some day =>
            let t := (dget m day.date).getD Tree.nil
            dset m day.date (t.insert sl.start sl.end_ sl.id)) acc) = acc by
    rw [h ts []]
  intro l
  induction l with
  | nil => intro acc; rfl
  | cons sl l ih => intro acc; exact ih acc

/-- C10: a load with an empty days batch (and any parsable slot batch)
succeeds — `set_data` raises nothing — yet the resulting state is
indistinguishable from never having loaded: the days list is empty, so
`get_busy_intervals`, `get_free_time` and `is_time_available` all still
raise the not-loaded error, because the not-loaded check is
`if not self.days` rather than a completed-load flag. -/
theorem C10_empty_days_load_looks_not_loaded (m : Mgr)
    (slots : List RawTimeSlot) (ts : List TimeSlot)
    (h : slots.mapM TimeSlot.from_dict = Except.ok ts) :
    (set_data m [] slots).2 = none ∧
    (set_data m [] slots).1.days = [] ∧
    (∀ date, get_busy_intervals (set_data m [] slots).1 date =
      Except.error Err.not_loaded) ∧
    (∀ date, get_free_time (set_data m [] slots).1 date =
      Except.error Err.not_loaded) ∧
    (∀ date s e, is_time_available (set_data m [] slots).1 date s e =
      Except.error Err.not_loaded) := by
  have hstate : set_data m [] slots = (⟨[], ts, [], [], []⟩, none) := by
    have h1 : set_data m [] slots =
        (⟨[], ts, (build_indexes [] ts).1, (build_indexes [] ts).2.1,
          (build_indexes [] ts).2.2⟩, none) := by
      simp only [set_data]
      rw [show List.mapM Day.from_dict ([] : List RawDay) = Except.ok [] from rfl, h]
    rw [h1, build_indexes_nil_days]
  rw [hstate]
  exact ⟨rfl, rfl, fun date => rfl, fun date => rfl, fun date s e => rfl⟩

theorem C10_empty_days_load_looks_not_loaded_witness :
    ((set_data Mgr.init []
        [⟨RawField.parsed 1, RawField.parsed 1, RawField.parsed 600,
          RawField.parsed 660⟩]).2 = none) ∧
    ((set_data Mgr.init []
        [⟨RawField.parsed 1, RawField.parsed 1, RawField.parsed 600,
          RawField.parsed 660⟩]).1.days = []) ∧
    (get_busy_intervals (set_data Mgr.init []
        [⟨RawField.parsed 1, RawField.parsed 1, RawField.parsed 600,
          RawField.parsed 660⟩]).1 100 = Except.error Err.not_loaded) ∧
    (get_free_time (set_data Mgr.init []
        [⟨RawField.parsed 1, RawField.parsed 1, RawField.parsed 600,
          RawField.parsed 660⟩]).1 100 = Except.error Err.not_loaded) ∧
    (is_time_available (set_data Mgr.init []
        [⟨RawField.parsed 1, RawField.parsed 1, RawField.parsed 600,
          RawField.parsed 660⟩]).1 100 600 660 = Except.error Err.not_loaded) := by
  have h := C10_empty_days_load_looks_not_loaded Mgr.init
    [⟨RawField.parsed 1, RawField.parsed 1, RawField.parsed 600, RawField.parsed 660⟩]
    [⟨1, 1, 600, 660⟩] rfl
  exact ⟨h.1, h.2.1, h.2.2.1 100, h.2.2.2.1 100, h.2.2.2.2 100 600 660⟩

/-- C7: for a loaded state (nonempty days list), a known date and a
requested range with start < end: availability is `false` whenever the
range falls outside `[day.start, day.end]`, and otherwise it is `true` iff
`find_overlapping` on that date's tree (the empty tree when the date has no
tree) returns no identifiers for the range. -/
theorem C7_is_time_available_spec (m : Mgr) (date s e : Int) (day : Day)
    (hload : m.days ≠ [])
    (hrange : s < e)
    (hday : dget m.day_by_date date = some day) :
    (s < day.start ∨ day.end_ < e →
      is_time_available m date s e = Except.ok false) ∧
    (day.start ≤ s → e ≤ day.end_ →
      is_time_available m date s e =
        Except.ok (decide (Tree.find_overlapping s e
          ((dget m.interval_trees date).getD Tree.nil) = []))) := by
  have hnl : ¬(m.days = []) := hload
  have hsge : ¬(s ≥ e) := by omega
  constructor
  · intro hout
    simp only [is_time_available, if_neg hnl, if_neg hsge, hday]
    rw [if_pos hout]
  · intro h1 h2
    have hin : ¬(s < day.start ∨ e > day.end_) := by omega
    simp only [is_time_available, if_neg hnl, if_neg hsge, hday]
    rw [if_neg hin]
    cases htree : dget m.interval_trees date with
    | none => rfl
    | some t =>
        simp only [htree]
        cases hemp : t.is_empty with
        | false =>
            rw [if_neg (by simp [hemp])]
            have hlen : ((Tree.find_overlapping s e t).length = 0) ↔
                (Tree.find_overlapping s e t = []) := List.length_eq_zero
            simp only [Option.getD_some]
            exact congrArg Except.ok (by rw [decide_eq_decide]; exact hlen)
        | true =>
            have ht : t = Tree.nil := Tree.is_empty_iff.mp hemp
            subst ht
            rfl

theorem C7_is_time_available_spec_witness :
    (sample_mgr.days ≠ [] ∧ (550 : Int) < 560 ∧
      dget sample_mgr.day_by_date 100 = some ⟨1, 100, 540, 1020⟩) ∧
    (((550 : Int) < (⟨1, 100, 540, 1020⟩ : Day).start ∨
        (⟨1, 100, 540, 1020⟩ : Day).end_ < 560 →
        is_time_available sample_mgr 100 550 560 = Except.ok false) ∧
      ((⟨1, 100, 540, 1020⟩ : Day).start ≤ 550 → 560 ≤ (⟨1, 100, 540, 1020⟩ : Day).end_ →
        is_time_available sample_mgr 100 550 560 =
          Except.ok (decide (Tree.find_overlapping 550 560
            ((dget sample_mgr.interval_trees 100).getD Tree.nil) = [])))) :=
  ⟨⟨by decide, by decide, by decide⟩,
    C7_is_time_available_spec sample_mgr 100 550 560 ⟨1, 100, 540, 1020⟩
      (by decide) (by decide) (by decide)⟩

theorem ffs_scan_eq_none (dur : Int) : ∀ (gs : List (Int × Int)),
    ffs_scan dur gs = none ↔ ∀ g ∈ gs, g.2 - g.1 < dur
  | [] => by simp [ffs_scan]
  | (s, e) :: rest => by
      by_cases h : e - s ≥ dur
      · simp only [ffs_scan, if_pos h]
        constructor
        · intro hc; simp at hc
        · intro hall
          exfalso
          have h2 : e - s < dur := hall (s, e) (by simp)
          omega
      · simp only [ffs_scan, if_neg h]
        rw [ffs_scan_eq_none dur rest]
        constructor
        · intro hall g hg
          rcases List.mem_cons.mp hg with rfl | hg
          · show e - s < dur; omega
          · exact hall g hg
        · intro hall g hg
          exact hall g (List.mem_cons_of_mem _ hg)

theorem ffs_scan_eq_some (dur : Int) : ∀ (gs : List (Int × Int)) (st : Int),
    ffs_scan dur gs = some st ↔
      ∃ pre g suf, gs = pre ++ g :: suf ∧ dur ≤ g.2 - g.1 ∧ st = g.1 ∧
        ∀ p ∈ pre, p.2 - p.1 < dur
  | [], st => by
      constructor
      · intro hc; exact absurd hc (by simp [ffs_scan])
      · rintro ⟨pre, g, suf, hcat, -⟩
        have hlen := congrArg List.length hcat
        simp [List.length_append] at hlen
        omega
  | (s, e) :: rest, st => by
      by_cases h : e - s ≥ dur
      · simp only [ffs_scan, if_pos h, Option.some.injEq]
        constructor
        · intro hst
          exact ⟨[], (s, e), rest, by simp, h, hst.symm, by simp⟩
        · rintro ⟨pre, g, suf, hcat, hg, hst, hpre⟩
          cases pre with
          | nil =>
              simp only [List.nil_append, List.cons.injEq] at hcat
              obtain ⟨rfl, -⟩ := hcat
              exact hst.symm
          | cons p pre' =>
              simp only [List.cons_append, List.cons.injEq] at hcat
              obtain ⟨rfl, -⟩ := hcat
              have hp : e - s < dur := hpre (s, e) (by simp)
              omega
      · simp only [ffs_scan, if_neg h]
        rw [ffs_scan_eq_some dur rest st]
        constructor
        · rintro ⟨pre, g, suf, hcat, hg, hst, hpre⟩
          refine ⟨(s, e) :: pre, g, suf, by rw [hcat]; rfl, hg, hst, ?_⟩
          intro p hp
          rcases List.mem_cons.mp hp with rfl | hp
          · show e - s < dur; omega
          · exact hpre p hp
        · rintro ⟨pre, g, suf, hcat, hg, hst, hpre⟩
          cases pre with
          | nil =>
              simp only [List.nil_append, List.cons.injEq] at hcat
              obtain ⟨rfl, -⟩ := hcat
              exfalso; omega
          | cons p pre' =>
              simp only [List.cons_append, List.cons.injEq] at hcat
              obtain ⟨rfl, hcat'⟩ := hcat
              exact ⟨pre', g, suf, hcat', hg, hst,
                fun q hq => hpre q (List.mem_cons_of_mem _ hq)⟩

/-- C9: `find_free_slot` raises the invalid-duration error for any
non-positive duration, and for a positive duration returns the start of the
first free gap (in `get_free_time` order) whose length reaches the
duration, or none when no single gap qualifies — regardless of the total
free time. -/
theorem C9_find_free_slot_first_fit (m : Mgr) (date dur : Int)
    (gs : List (Int × Int))
    (hfree : get_free_time m date = Except.ok gs) :
    (dur ≤ 0 → find_free_slot m date dur = Except.error Err.invalid_duration) ∧
    (0 < dur →
      ((find_free_slot m date dur = Except.ok none ↔ ∀ g ∈ gs, g.2 - g.1 < dur) ∧
        (∀ st, find_free_slot m date dur = Except.ok (some st) ↔
          ∃ pre g suf, gs = pre ++ g :: suf ∧ dur ≤ g.2 - g.1 ∧ st = g.1 ∧
            ∀ p ∈ pre, p.2 - p.1 < dur))) := by
  constructor
  · intro hd; simp [find_free_slot, if_pos hd]
  · intro hd
    have hd' : ¬(dur ≤ 0) := by omega
    constructor
    · simp only [find_free_slot, if_neg hd', hfree, Except.ok.injEq]
      exact ffs_scan_eq_none dur gs
    · intro st
      simp only [find_free_slot, if_neg hd', hfree, Except.ok.injEq]
      exact ffs_scan_eq_some dur gs st

theorem C9_find_free_slot_first_fit_witness :
    (get_free_time sample_mgr 100 = Except.ok [(540, 600), (660, 1020)]) ∧
    (((300 : Int) ≤ 0 →
        find_free_slot sample_mgr 100 300 = Except.error Err.invalid_duration) ∧
      ((0 : Int) < 300 →
        ((find_free_slot sample_mgr 100 300 = Except.ok none ↔
            ∀ g ∈ [((540 : Int), (600 : Int)), (660, 1020)], g.2 - g.1 < 300) ∧
          (∀ st, find_free_slot sample_mgr 100 300 = Except.ok (some st) ↔
            ∃ pre g suf,
              [((540 : Int), (600 : Int)), (660, 1020)] = pre ++ g :: suf ∧
                (300 : Int) ≤ g.2 - g.1 ∧ st = g.1 ∧
                ∀ p ∈ pre, p.2 - p.1 < 300)))) :=
  ⟨by decide,
    C9_find_free_slot_first_fit sample_mgr 100 300 [(540, 600), (660, 1020)]
      (by decide)⟩

theorem gaps_ge (mth : Int) : ∀ (L : List (Int × Int × Int)) (cur de : Int),
    covered (gaps cur de L) mth → cur ≤ mth
  | [], cur, de, h => by
      simp only [gaps] at h
      by_cases hc : cur < de
      · rw [if_pos hc] at h
        obtain ⟨p, hp, h1, h2⟩ := h
        simp only [List.mem_singleton] at hp
        subst hp
        exact h1
      · rw [if_neg hc] at h
        obtain ⟨p, hp, -⟩ := h
        simp at hp
  | (s, e, id) :: rest, cur, de, h => by
      simp only [gaps] at h
      by_cases hc : cur < s
      · rw [if_pos hc] at h
        obtain ⟨p, hp, h1, h2⟩ := h
        rcases List.mem_cons.mp hp with rfl | hp
        · exact h1
        · have := gaps_ge mth rest (max cur e) de ⟨p, hp, h1, h2⟩
          omega
      · rw [if_neg hc] at h
        have := gaps_ge mth rest (max cur e) de h
        omega

theorem gaps_lt (mth : Int) : ∀ (L : List (Int × Int × Int)) (cur de : Int),
    (∀ x ∈ L, x.1 ≤ de) → covered (gaps cur de L) mth → mth < de
  | [], cur, de, _, h => by
      simp only [gaps] at h
      by_cases hc : cur < de
      · rw [if_pos hc] at h
        obtain ⟨p, hp, h1, h2⟩ := h
        simp only [List.mem_singleton] at hp
        subst hp
        exact h2
      · rw [if_neg hc] at h
        obtain ⟨p, hp, -⟩ := h
        simp at hp
  | (s, e, id) :: rest, cur, de, hub, h => by
      simp only [gaps] at h
      have hub' : ∀ x ∈ rest, x.1 ≤ de := fun x hx => hub x (List.mem_cons_of_mem _ hx)
      by_cases hc : cur < s
      · rw [if_pos hc] at h
        obtain ⟨p, hp, h1, h2⟩ := h
        rcases List.mem_cons.mp hp with rfl | hp
        · have hs : s ≤ de := hub (s, e, id) (by simp)
          have h2' : mth < s := h2
          omega
        · exact gaps_lt mth rest (max cur e) de hub' ⟨p, hp, h1, h2⟩
      · rw [if_neg hc] at h
        exact gaps_lt mth rest (max cur e) de hub' h

theorem gaps_complete (mth : Int) : ∀ (L : List (Int × Int × Int)) (cur de : Int),
    cur ≤ mth → mth < de → covered3 L mth ∨ covered (gaps cur de L) mth
  | [], cur, de, h1, h2 => by
      right
      simp only [gaps]
      rw [if_pos (by omega)]
      exact ⟨(cur, de), by simp, h1, h2⟩
  | (s, e, id) :: rest, cur, de, h1, h2 => by
      simp only [gaps]
      by_cases hc : cur < s
      · rw [if_pos hc]
        by_cases hm : mth < s
        · right
          exact ⟨(cur, s), by simp, h1, hm⟩
        · by_cases hme : mth < e
          · left
            exact ⟨(s, e, id), by simp, by omega, hme⟩
          · rcases gaps_complete mth rest (max cur e) de (by omega) h2 with hl | hr
            · left
              obtain ⟨p, hp, hp1, hp2⟩ := hl
              exact ⟨p, List.mem_cons_of_mem _ hp, hp1, hp2⟩
            · right
              obtain ⟨p, hp, hp1, hp2⟩ := hr
              exact ⟨p, List.mem_cons_of_mem _ hp, hp1, hp2⟩
      · rw [if_neg hc]
        by_cases hme : mth < e
        · by_cases hms : s ≤ mth
          · left
            exact ⟨(s, e, id), by simp, hms, hme⟩
          · exfalso; omega
        · rcases gaps_complete mth rest (max cur e) de (by omega) h2 with hl | hr
          · left
            obtain ⟨p, hp, hp1, hp2⟩ := hl
            exact ⟨p, List.mem_cons_of_mem _ hp, hp1, hp2⟩
          · right
            exact hr

theorem gaps_disjoint (mth : Int) : ∀ (L : List (Int × Int × Int)) (cur de : Int),
    L.Pairwise (fun a b => a.1 ≤ b.1) →
    covered3 L mth → covered (gaps cur de L) mth → False
  | [], _, _, _, hb, _ => by
      obtain ⟨p, hp, -⟩ := hb
      simp at hp
  | (s, e, id) :: rest, cur, de, hsort, hb, hg => by
      rw [List.pairwise_cons] at hsort
      obtain ⟨hhead, hrest⟩ := hsort
      simp only [gaps] at hg
      obtain ⟨p, hp, hp1, hp2⟩ := hb
      rcases List.mem_cons.mp hp with rfl | hpmem
      · have hp1' : s ≤ mth := hp1
        have hp2' : mth < e := hp2
        by_cases hc : cur < s
        · rw [if_pos hc] at hg
          obtain ⟨q, hq, hq1, hq2⟩ := hg
          rcases List.mem_cons.mp hq with rfl | hqmem
          · have hq2' : mth < s := hq2
            omega
          · have := gaps_ge mth rest (max cur e) de ⟨q, hqmem, hq1, hq2⟩
            omega
        · rw [if_neg hc] at hg
          have := gaps_ge mth rest (max cur e) de hg
          omega
      · have hx1 : s ≤ p.1 := hhead p hpmem
        by_cases hc : cur < s
        · rw [if_pos hc] at hg
          obtain ⟨q, hq, hq1, hq2⟩ := hg
          rcases List.mem_cons.mp hq with rfl | hqmem
          · have hq2' : mth < s := hq2
            omega
          · exact gaps_disjoint mth rest (max cur e) de hrest
              ⟨p, hpmem, hp1, hp2⟩ ⟨q, hqmem, hq1, hq2⟩
        · rw [if_neg hc] at hg
          exact gaps_disjoint mth rest (max cur e) de hrest ⟨p, hpmem, hp1, hp2⟩ hg

/-- C4 counterexample: a batch that loads successfully can store a slot
08:00-10:00 outside its working day 09:00-17:00; then busy ∪ free covers
minute 480 (08:00), which lies outside `[day.start, day.end)` = [540, 1020),
so the union is not exactly the working-day range. -/
theorem C4_counterexample_union_exceeds_day :
    get_busy_intervals oob_mgr 100 = Except.ok [(480, 600)] ∧
    get_free_time oob_mgr 100 = Except.ok [(600, 1020)] ∧
    dget oob_mgr.day_by_date 100 = some ⟨1, 100, 540, 1020⟩ ∧
    covered [(480, 600)] 480 ∧
    ¬((540 : Int) ≤ 480 ∧ (480 : Int) < 1020) :=
  ⟨by decide, by decide, by decide, by decide, by decide⟩

/-- C4 amended: for a loaded state and a known day, no busy interval ever
overlaps any free interval — unconditionally, out-of-bounds slots included;
and provided every busy interval of that date lies within the working day
(`day.start ≤ start ≤ end ≤ day.end`), the union of the busy and free
minute ranges is exactly `[day.start, day.end)`. -/
theorem C4_amended_free_busy_complement (m : Mgr) (date : Int) (day : Day)
    (bs fs : List (Int × Int))
    (hnl : m.days ≠ [])
    (hday : dget m.day_by_date date = some day)
    (hbusy : get_busy_intervals m date = Except.ok bs)
    (hfree : get_free_time m date = Except.ok fs) :
    (∀ mth : Int, ¬(covered bs mth ∧ covered fs mth)) ∧
    ((∀ p ∈ bs, day.start ≤ p.1 ∧ p.1 ≤ p.2 ∧ p.2 ≤ day.end_) →
      ∀ mth : Int,
        (covered bs mth ∨ covered fs mth) ↔ (day.start ≤ mth ∧ mth < day.end_)) := by
  have hnl' : ¬(m.days = []) := hnl
  simp only [get_busy_intervals, if_neg hnl', hday] at hbusy
  simp only [get_free_time, if_neg hnl', hday] at hfree
  have hwhole : ∀ (h1 : bs = []) (h2 : fs = [(day.start, day.end_)]),
      (∀ mth : Int, ¬(covered bs mth ∧ covered fs mth)) ∧
      ((∀ p ∈ bs, day.start ≤ p.1 ∧ p.1 ≤ p.2 ∧ p.2 ≤ day.end_) →
        ∀ mth : Int,
          (covered bs mth ∨ covered fs mth) ↔ (day.start ≤ mth ∧ mth < day.end_)) := by
    rintro rfl rfl
    constructor
    · rintro mth ⟨⟨p, hp, -⟩, -⟩
      simp at hp
    · intro _ mth
      constructor
      · rintro (hb | hf)
        · obtain ⟨p, hp, -⟩ := hb
          simp at hp
        · obtain ⟨p, hp, h1, h2⟩ := hf
          simp only [List.mem_singleton] at hp
          subst hp
          exact ⟨h1, h2⟩
      · rintro ⟨h1, h2⟩
        right
        exact ⟨(day.start, day.end_), by simp, h1, h2⟩
  cases htree : dget m.interval_trees date with
  | none =>
      rw [htree] at hbusy hfree
      exact hwhole (by simpa using hbusy.symm) (by simpa using hfree.symm)
  | some t =>
      rw [htree] at hbusy hfree
      have hbusy' : (if t.is_empty = true then Except.ok []
          else Except.ok ((Tree.get_all_intervals t).map (fun x => (x.1, x.2.1)))) =
          Except.ok bs := hbusy
      have hfree' : (if t.is_empty = true then Except.ok [(day.start, day.end_)]
          else Except.ok (gaps day.start day.end_ (Tree.get_all_intervals t))) =
          Except.ok fs := hfree
      cases hemp : t.is_empty with
      | true =>
          rw [hemp] at hbusy' hfree'
          simp only [if_true] at hbusy' hfree'
          exact hwhole (by simpa using hbusy'.symm) (by simpa using hfree'.symm)
      | false =>
          rw [hemp] at hbusy' hfree'
          simp only [Bool.false_eq_true, if_false] at hbusy' hfree'
          obtain rfl : bs = (Tree.get_all_intervals t).map (fun x => (x.1, x.2.1)) := by
            simpa using hbusy'.symm
          obtain rfl : fs = gaps day.start day.end_ (Tree.get_all_intervals t) := by
            simpa using hfree'.symm
          have hsort : (Tree.get_all_intervals t).Pairwise (fun a b => a.1 ≤ b.1) :=
            Tree.get_all_intervals_sorted_by_start t
          have hcov : ∀ mth : Int,
              covered ((Tree.get_all_intervals t).map (fun x => (x.1, x.2.1))) mth ↔
                covered3 (Tree.get_all_intervals t) mth := by
            intro mth
            constructor
            · rintro ⟨p, hp, h1, h2⟩
              obtain ⟨x, hx, rfl⟩ := List.mem_map.mp hp
              exact ⟨x, hx, h1, h2⟩
            · rintro ⟨x, hx, h1, h2⟩
              exact ⟨(x.1, x.2.1), List.mem_map_of_mem _ hx, h1, h2⟩
          constructor
          · rintro mth ⟨hb, hf⟩
            exact gaps_disjoint mth (Tree.get_all_intervals t) day.start day.end_
              hsort ((hcov mth).mp hb) hf
          · intro hbounds
            have hbounds3 : ∀ x ∈ Tree.get_all_intervals t,
                day.start ≤ x.1 ∧ x.1 ≤ x.2.1 ∧ x.2.1 ≤ day.end_ := by
              intro x hx
              exact hbounds (x.1, x.2.1) (List.mem_map_of_mem _ hx)
            intro mth
            constructor
            · rintro (hb | hf)
              · obtain ⟨x, hx, h1, h2⟩ := (hcov mth).mp hb
                have hbx := hbounds3 x hx
                exact ⟨by omega, by omega⟩
              · have hge := gaps_ge mth (Tree.get_all_intervals t) day.start day.end_ hf
                have hlt := gaps_lt mth (Tree.get_all_intervals t) day.start day.end_
                  (fun x hx => by have := hbounds3 x hx; omega) hf
                exact ⟨hge, hlt⟩
            · rintro ⟨h1, h2⟩
              rcases gaps_complete mth (Tree.get_all_intervals t) day.start day.end_ h1 h2
                with hl | hr
              · left
                exact (hcov mth).mpr hl
              · right
                exact hr

theorem C4_amended_free_busy_complement_witness :
    (sample_mgr.days ≠ [] ∧
      dget sample_mgr.day_by_date 100 = some ⟨1, 100, 540, 1020⟩ ∧
      get_busy_intervals sample_mgr 100 = Except.ok [(600, 660)] ∧
      get_free_time sample_mgr 100 = Except.ok [(540, 600), (660, 1020)]) ∧
    (¬(covered [((600 : Int), (660 : Int))] 550 ∧
        covered [((540 : Int), (600 : Int)), (660, 1020)] 550)) ∧
    ((∀ p ∈ [((600 : Int), (660 : Int))],
        (⟨1, 100, 540, 1020⟩ : Day).start ≤ p.1 ∧ p.1 ≤ p.2 ∧
          p.2 ≤ (⟨1, 100, 540, 1020⟩ : Day).end_) →
      ((covered [((600 : Int), (660 : Int))] 550 ∨
          covered [((540 : Int), (600 : Int)), (660, 1020)] 550) ↔
        ((⟨1, 100, 540, 1020⟩ : Day).start ≤ 550 ∧
          (550 : Int) < (⟨1, 100, 540, 1020⟩ : Day).end_))) := by
  have h := C4_amended_free_busy_complement sample_mgr 100 ⟨1, 100, 540, 1020⟩
    [(600, 660)] [(540, 600), (660, 1020)]
    (by decide) (by decide) (by decide) (by decide)
  exact ⟨⟨by decide, by decide, by decide, by decide⟩, h.1 550, fun hb => h.2 hb 550⟩

end Schedule
